import Mathlib

/-
  Verification development for the lx-lsp note language server.

  Go strings are modelled as lists of characters (all inputs of interest are
  ASCII, where Go's byte indexing and rune iteration coincide).  Each
  definition below is a direct translation of the corresponding Go function
  from pkg/metadata (the metadata parser/formatter/updater) and from
  server/server.go and server/handlers.go (slug resolver, index, incremental
  updater, completion, diagnostics).  Filesystem access and the LSP transport
  are modelled as explicit parameters.
-/

set_option maxRecDepth 4000

namespace Lx

/-- Go strings modelled as lists of characters. -/
abbrev GoStr := List Char

/-- Literal helper: the character list of a Lean string literal. -/
def gs (s : String) : GoStr := s.data

/-- The opening brace character. -/
def lbr : Char := Char.ofNat 123

/-- The closing brace character. -/
def rbr : Char := Char.ofNat 125

/-- Characters treated as white space by Go's unicode.IsSpace (ASCII part):
space, tab, newline, vertical tab, form feed, carriage return. -/
def isSpc (c : Char) : Bool :=
  c = ' ' ∨ c = '\t' ∨ c = '\n' ∨ c = '\r' ∨ c = Char.ofNat 11 ∨ c = Char.ofNat 12

/-- Characters matched by the regexp class backslash-s: [ \t\n\f\r]. -/
def isRxSpace (c : Char) : Bool :=
  c = ' ' ∨ c = '\t' ∨ c = '\n' ∨ c = '\r' ∨ c = Char.ofNat 12

/-- Characters matched by the regexp word class: [0-9A-Za-z_]. -/
def isWordChar (c : Char) : Bool :=
  ('a' ≤ c ∧ c ≤ 'z') ∨ ('A' ≤ c ∧ c ≤ 'Z') ∨ ('0' ≤ c ∧ c ≤ '9') ∨ c = '_'

/-- ASCII digit test, mirroring the explicit rune comparison in the Go slug code. -/
def isDigitCh (c : Char) : Bool := '0' ≤ c ∧ c ≤ '9'

/-- strings.TrimSpace: drop white space from both ends. -/
def goTrim (s : GoStr) : GoStr :=
  ((s.dropWhile isSpc).reverse.dropWhile isSpc).reverse

/-- strings.ToLower on ASCII text. -/
def goLower (s : GoStr) : GoStr := s.map Char.toLower

/-- strings.HasPrefix s p. -/
def goStarts (s p : GoStr) : Bool := p.isPrefixOf s

/-- strings.HasSuffix s p. -/
def goEnds (s p : GoStr) : Bool := p.isSuffixOf s

/-- strings.TrimPrefix s p. -/
def goDropPre (s p : GoStr) : GoStr := if goStarts s p then s.drop p.length else s

/-- strings.TrimSuffix s p. -/
def goDropSuf (s p : GoStr) : GoStr :=
  if goEnds s p then s.take (s.length - p.length) else s

/-- strings.EqualFold on ASCII text. -/
def goEqFold (a b : GoStr) : Bool := goLower a == goLower b

/-- strings.Split with a one-character separator. -/
def splitCh (c : Char) : GoStr → List GoStr
  | [] => [[]]
  | x :: xs =>
    if x = c then [] :: splitCh c xs
    else
      match splitCh c xs with
      | [] => [[x]]
      | y :: ys => (x :: y) :: ys

/-- strings.Join: join parts with a separator between consecutive parts. -/
def joinSep (sep : GoStr) : List GoStr → GoStr
  | [] => []
  | [x] => x
  | x :: y :: ys => x ++ sep ++ joinSep sep (y :: ys)

/-- Join every line followed by a newline (used for the lines before a
metadata block in Update's reconstruction). -/
def joinNl : List GoStr → GoStr
  | [] => []
  | l :: ls => l ++ '\n' :: joinNl ls

/-- Drop a single trailing carriage return, as bufio.ScanLines does. -/
def dropCR (s : GoStr) : GoStr :=
  if s.getLast? = some '\r' then s.dropLast else s

/-- The tokens produced by a bufio.Scanner with ScanLines on s: split at
newlines, with no empty final token when s ends in a newline, and a trailing
carriage return removed from every token. -/
def scanTokens (s : GoStr) : List GoStr :=
  if s = [] then []
  else if s.getLast? = some '\n' then ((splitCh '\n' s).dropLast).map dropCR
  else (splitCh '\n' s).map dropCR

/-- Fuel-indexed iteration of the comment-marker stripping step: while the
text begins with a percent sign, remove it and trim white space. -/
def stripIter : Nat → GoStr → GoStr
  | 0, s => s
  | _ + 1, [] => []
  | n + 1, a :: xs => if a = '%' then stripIter n (goTrim xs) else a :: xs

/-- The Go loop `for HasPrefix(stripped, "%") { stripped = TrimSpace(TrimPrefix(stripped, "%")) }`.
Each iteration shortens the string, so the string's length bounds the number of steps. -/
def stripPct (s : GoStr) : GoStr := stripIter s.length s

/-- Render a natural number in decimal, as Go's %d does. -/
def natStr (n : Nat) : GoStr := (Nat.repr n).data

/-- Metadata represents the structured metadata from a note file
(struct Metadata in pkg/metadata). -/
structure Metadata where
  title : GoStr
  date : GoStr
  tags : List GoStr
deriving DecidableEq

/-- ParseError (struct ParseError in pkg/metadata). -/
structure ParseError where
  line : Nat
  field : GoStr
  message : GoStr
deriving DecidableEq

/-- ParseError.Error(): "line %d (%s): %s". -/
def errString (e : ParseError) : GoStr :=
  gs "line " ++ natStr e.line ++ gs " (" ++ e.field ++ gs "): " ++ e.message

/-- ParseResult (struct ParseResult in pkg/metadata). -/
structure ParseResult where
  metadata : Metadata
  errors : List ParseError
  warnings : List GoStr
deriving DecidableEq

/-- The regexp match for a metadata field line, pattern
caret (backslash-w plus) colon backslash-s star (dot star) dollar:
a non-empty run of word characters, a colon, then the rest with leading
regexp white space skipped; the second group cannot contain a newline. -/
def matchFieldValue (s : GoStr) : Option (GoStr × GoStr) :=
  if s.takeWhile isWordChar = [] then none
  else
    match s.drop (s.takeWhile isWordChar).length with
    | ':' :: rest =>
      if (rest.dropWhile isRxSpace).contains '\n' then none
      else some (s.takeWhile isWordChar, rest.dropWhile isRxSpace)
    | _ => none

/-- validateDate: empty dates are allowed; otherwise the date must parse with
layout 2006-01-02, i.e. be a calendar-correct YYYY-MM-DD string.  Returns the
error message, if any. -/
def isLeap (y : Nat) : Bool := y % 4 = 0 ∧ (y % 100 ≠ 0 ∨ y % 400 = 0)

/-- Days in a month of the proleptic Gregorian calendar used by Go's time package. -/
def daysIn (y m : Nat) : Nat :=
  if m = 2 then (if isLeap y then 29 else 28)
  else if m = 4 ∨ m = 6 ∨ m = 9 ∨ m = 11 then 30
  else 31

/-- Digit value of an ASCII digit character. -/
def digitVal (c : Char) : Nat := c.toNat - 48

/-- Decimal value of a digit string. -/
def natOf (s : GoStr) : Nat := s.foldl (fun a c => a * 10 + digitVal c) 0

/-- Whether time.Parse("2006-01-02", s) succeeds: exactly ten characters,
four-digit year, two-digit month and day separated by hyphens, month in
1..12 and day within the month's length. -/
def isValidDate (s : GoStr) : Bool :=
  match s with
  | [y1, y2, y3, y4, h1, m1, m2, h2, d1, d2] =>
    h1 = '-' ∧ h2 = '-' ∧
    ([y1, y2, y3, y4, m1, m2, d1, d2].all isDigitCh) ∧
    (let yr := natOf [y1, y2, y3, y4]
     let mo := natOf [m1, m2]
     let dy := natOf [d1, d2]
     1 ≤ mo ∧ mo ≤ 12 ∧ 1 ≤ dy ∧ dy ≤ daysIn yr mo)
  | _ => false

/-- Parser.validateDate: checks a date string, returning an error message for
a malformed non-empty date. -/
def validateDate (date : GoStr) : Option GoStr :=
  if date = [] then none
  else if isValidDate date then none
  else some (gs "invalid date format (expected YYYY-MM-DD): " ++ date)

/-- Parser.validateMetadata: the title must be non-empty. -/
def validateMetadata (m : Metadata) : Option GoStr :=
  if m.title = [] then some (gs "required field \x27title\x27 is missing") else none

/-- The tag deduplication loop of Parser.normalizeMetadata: keys are the
trimmed lower-cased tags, the first occurrence of each non-blank key is kept
with its original casing. -/
def dedupGo (keys kept : List GoStr) : List GoStr → List GoStr
  | [] => kept
  | t :: ts =>
    let n := goTrim (goLower t)
    if n ≠ [] ∧ ¬ keys.contains n then dedupGo (keys ++ [n]) (kept ++ [t]) ts
    else dedupGo keys kept ts

/-- Tag deduplication as performed by Parser.normalizeMetadata. -/
def dedupTags (tags : List GoStr) : List GoStr := dedupGo [] [] tags

/-- Parser.normalizeMetadata: trim the title, trim a non-empty date, and
deduplicate the tags. -/
def normalizeMetadata (m : Metadata) : Metadata :=
  { title := goTrim m.title
    date := if m.date ≠ [] then goTrim m.date else m.date
    tags := dedupTags m.tags }

/-- Parser.parseMetadataLine.  Returns the updated result and the error the
Go method returns (used by the caller only in strict mode for the date, and
unconditionally recorded for an empty title). -/
def parseMetadataLine (strict : Bool) (line : GoStr) (lineNum : Nat)
    (r : ParseResult) : ParseResult × Option GoStr :=
  let trimmed := stripPct (goTrim line)
  match matchFieldValue trimmed with
  | none =>
    let e : ParseError :=
      ⟨lineNum, gs "format", gs "invalid metadata line format: " ++ line⟩
    ({ r with warnings := r.warnings ++ [errString e] }, none)
  | some (f, v0) =>
    let field := goLower (goTrim f)
    let value := goTrim v0
    if field = gs "title" then
      if r.metadata.title ≠ [] then
        ({ r with warnings := r.warnings ++
            [gs "line " ++ natStr lineNum ++ gs ": duplicate title field, using first occurrence"] },
         none)
      else if value = [] then
        ({ r with errors := r.errors ++ [⟨lineNum, gs "title", gs "title cannot be empty"⟩] },
         some (gs "title cannot be empty"))
      else
        ({ r with metadata := { r.metadata with title := value } }, none)
    else if field = gs "date" then
      if r.metadata.date ≠ [] then
        ({ r with warnings := r.warnings ++
            [gs "line " ++ natStr lineNum ++ gs ": duplicate date field, using first occurrence"] },
         none)
      else
        match validateDate value with
        | some msg =>
          let r2 := { r with
            errors := r.errors ++ [⟨lineNum, gs "date", msg⟩]
            metadata := { r.metadata with date := value } }
          if strict then (r2, some msg) else (r2, none)
        | none =>
          ({ r with metadata := { r.metadata with date := value } }, none)
    else if field = gs "tags" then
      let r1 :=
        if r.metadata.tags ≠ [] then
          { r with warnings := r.warnings ++
              [gs "line " ++ natStr lineNum ++ gs ": duplicate tags field, merging values"] }
        else r
      if value = [] then (r1, none)
      else
        let parts := splitCh ',' value
        let newTags := parts.foldl
          (fun acc t => let tt := goTrim t; if tt ≠ [] then acc ++ [tt] else acc)
          r1.metadata.tags
        ({ r1 with metadata := { r1.metadata with tags := newTags } }, none)
    else
      ({ r with warnings := r.warnings ++
          [gs "line " ++ natStr lineNum ++ gs ": unknown metadata field \x27" ++ field ++
           gs "\x27, ignoring"] },
       none)

/-- Whether a line is recognized as the start of a metadata block: after
removing leading percent signs and white space it equals "Metadata"
case-insensitively, or lower-cased it starts with "metadata". -/
def isMetaHeader (line : GoStr) : Bool :=
  let stripped := stripPct (goTrim line)
  goEqFold stripped (gs "Metadata") ∨ goStarts (goLower stripped) (gs "metadata")

/-- Collect the lines of a metadata block after its header: every following
line whose trimmed form starts with a percent sign. -/
def collectBlock : List GoStr → List GoStr
  | [] => []
  | l :: ls => if goStarts (goTrim l) (gs "%") then l :: collectBlock ls else []

/-- The scanning loop of Parser.extractMetadataBlock over the split lines,
tracking the current line index. -/
def extractGo : List GoStr → Nat → Option (List GoStr × Nat)
  | [], _ => none
  | l :: ls, i =>
    if isMetaHeader l then some (l :: collectBlock ls, i)
    else extractGo ls (i + 1)

/-- Parser.extractMetadataBlock: the block's joined text and starting line. -/
def extractMetadataBlock (content : GoStr) : Option (GoStr × Nat) :=
  (extractGo (splitCh '\n' content) 0).map fun p => (joinSep (gs "\n") p.1, p.2)

/-- The field-parsing loop of Parser.Parse over the scanner's lines; in strict
mode an error aborts the loop. -/
def parseLoop (strict : Bool) : Nat → ParseResult → List GoStr → ParseResult × Option GoStr
  | _, r, [] => (r, none)
  | lineNum, r, l :: ls =>
    let n := lineNum + 1
    let t := goTrim l
    if t = [] ∨ goStarts t (gs "%% Metadata") ∨ goStarts t (gs "% Metadata") then
      parseLoop strict n r ls
    else
      match parseMetadataLine strict l n r with
      | (r2, some e) => if strict then (r2, some e) else parseLoop strict n r2 ls
      | (r2, none) => parseLoop strict n r2 ls

/-- Parser.Parse: extract the metadata block, parse its field lines, validate
and normalize.  The second component is the error returned by the Go method
(some means the parse aborted, which only happens in strict mode). -/
def Parse (strict : Bool) (content : GoStr) : ParseResult × Option GoStr :=
  let init : ParseResult := ⟨⟨[], [], []⟩, [], []⟩
  match extractMetadataBlock content with
  | none =>
    let r := { init with errors := [⟨0, gs "metadata", gs "no metadata block found"⟩] }
    if strict then (r, some (gs "no metadata block found")) else (r, none)
  | some (block, blockStart) =>
    match parseLoop strict blockStart init (scanTokens block) with
    | (r, some e) => (r, some e)
    | (r, none) =>
      match validateMetadata r.metadata with
      | some ve =>
        let r2 := { r with errors := r.errors ++ [⟨0, gs "validation", ve⟩] }
        if strict then (r2, some ve)
        else ({ r2 with metadata := normalizeMetadata r2.metadata }, none)
      | none => ({ r with metadata := normalizeMetadata r.metadata }, none)

/-- Extract: lenient parsing, returning just the metadata (the lenient parser
never returns an error). -/
def Extract (content : GoStr) : Metadata := (Parse false content).1.metadata

/-- Format: render the canonical metadata block.  time.Now().Format("2006-01-02")
is modelled by the explicit parameter now, used when the date is empty. -/
def Format (now : GoStr) (m : Metadata) : GoStr :=
  gs "%% Metadata\n" ++
  (gs "%% title: " ++ m.title ++ gs "\n") ++
  (gs "%% date: " ++ (if m.date ≠ [] then m.date else now) ++ gs "\n") ++
  (if m.tags ≠ [] then gs "%% tags: " ++ joinSep (gs ", ") m.tags ++ gs "\n"
   else gs "%% tags: \n")

/-- The block-end search loop of Update, over the lines from the block start,
with the running line index and the inBlock flag. -/
def blockEndLoop : List GoStr → Bool → Nat → Nat → Nat
  | [], _, be, _ => be
  | l :: ls, inB, be, i =>
    let t := goTrim l
    if goStarts t (gs "%% Metadata") ∨ goStarts t (gs "% Metadata") then
      blockEndLoop ls true be (i + 1)
    else if inB then
      if ¬ goStarts t (gs "%") then i
      else blockEndLoop ls inB (i + 1) (i + 1)
    else blockEndLoop ls inB be (i + 1)

/-- Update: replace an existing metadata block with Format's output, or
prepend it when none is found; a blank line right at the computed block end
is dropped, and the last line is written without a trailing newline. -/
def Update (now : GoStr) (content : GoStr) (m : Metadata) : GoStr :=
  let newMetadata := Format now m
  match extractMetadataBlock content with
  | none => newMetadata ++ '\n' :: content
  | some (_, blockStart) =>
    let lines := splitCh '\n' content
    let blockEnd := blockEndLoop (lines.drop blockStart) false blockStart blockStart
    let before := joinNl (lines.take blockStart)
    let after :=
      match lines.drop blockEnd with
      | [] => []
      | l :: ls => if goTrim l = [] then joinSep (gs "\n") ls else joinSep (gs "\n") (l :: ls)
    before ++ newMetadata ++ after

/-- NoteHeader (struct NoteHeader in server/server.go). -/
structure NoteHeader where
  title : GoStr
  date : GoStr
  tags : List GoStr
  slug : GoStr
  filename : GoStr
deriving DecidableEq

/-- The Index's map, modelled as an association list with distinct keys
(slug to header).  Operations mirror Get/Set/Delete/Count/All. -/
abbrev Index := List (GoStr × NoteHeader)

/-- Index.Get. -/
def idxGet (i : Index) (slug : GoStr) : Option NoteHeader := i.lookup slug

/-- Index.Set: upsert, replacing the entry of an existing key. -/
def idxSet (i : Index) (slug : GoStr) (h : NoteHeader) : Index :=
  if (i.map Prod.fst).contains slug then
    i.map fun p => if p.1 = slug then (slug, h) else p
  else i ++ [(slug, h)]

/-- Index.Delete. -/
def idxDelete (i : Index) (slug : GoStr) : Index :=
  i.filter fun p => decide (p.1 ≠ slug)

/-- Index.Count. -/
def idxCount (i : Index) : Nat := i.length

/-- Index.All: the headers, in the model's fixed iteration order. -/
def idxAll (i : Index) : List NoteHeader := i.map Prod.snd

/-- strings.SplitN(s, sep, 2) with a one-character separator. -/
def goSplitTwo (c : Char) (s : GoStr) : List GoStr :=
  if s.contains c then
    [s.takeWhile (fun x => x ≠ c), (s.dropWhile (fun x => x ≠ c)).drop 1]
  else [s]

/-- LanguageServer.parseFilenameToSlug: strip a ".tex" suffix; if SplitN
produced two parts and the part before the first hyphen is 8 characters, all
digits, drop it together with the hyphen. -/
def parseFilenameToSlug (filename : GoStr) : GoStr :=
  if (goSplitTwo '-' (goDropSuf filename (gs ".tex"))).length = 2 then
    if ((goSplitTwo '-' (goDropSuf filename (gs ".tex"))).getD 0 []).length = 8 ∧
        ((goSplitTwo '-' (goDropSuf filename (gs ".tex"))).getD 0 []).all
          (fun ch => ¬ (ch < '0' ∨ '9' < ch)) then
      (goSplitTwo '-' (goDropSuf filename (gs ".tex"))).getD 1 []
    else goDropSuf filename (gs ".tex")
  else goDropSuf filename (gs ".tex")

/-- filepath.Base: the last element of the path after removing trailing
slashes; "." for the empty path, "/" when only slashes remain. -/
def goBase (p : GoStr) : GoStr :=
  if p = [] then gs "."
  else
    let q := p.reverse.dropWhile (fun c => c = '/') |>.reverse
    if q = [] then gs "/"
    else (q.reverse.takeWhile (fun c => c ≠ '/')).reverse

/-- The state of a path on disk: missing, present but unreadable, or
readable with the given content. -/
inductive FileState
  | absent
  | unreadable
  | readable (content : GoStr)
deriving DecidableEq

/-- LanguageServer.parseNoteHeader on a file whose content was read
successfully: extract metadata leniently and fall back to the slug for a
missing title (the lenient parser never returns an error, so the Go
fallback-on-Extract-error branch is unreachable). -/
def parseNoteHeader (filename content : GoStr) : NoteHeader :=
  let meta := Extract content
  let slug := parseFilenameToSlug filename
  { filename := filename
    slug := slug
    title := if meta.title = [] then slug else meta.title
    date := meta.date
    tags := meta.tags }

/-- LanguageServer.updateIndexForFile: fs models os.Stat/os.ReadFile and
getNotePath models vault.GetNotePath.  A missing path deletes the slug
derived from the path's basename; an unreadable file leaves the index
untouched; otherwise the re-parsed header is upserted. -/
def updateIndexForFile (fs : GoStr → FileState) (getNotePath : GoStr → GoStr)
    (idx : Index) (path : GoStr) : Index :=
  if fs path = FileState.absent then
    idxDelete idx (parseFilenameToSlug (goBase path))
  else
    match fs (getNotePath (goBase path)) with
    | FileState.readable c =>
      let header := parseNoteHeader (goBase path) c
      idxSet idx header.slug header
    | _ => idx

/-- uriToPath: strip the first seven bytes whenever TrimPrefix(path, "file://")
is non-empty.  Go's path[7:] panics on a shorter string, modelled as none. -/
def uriToPath (uri : GoStr) : Option GoStr :=
  if goDropPre uri (gs "file://") ≠ [] then
    if 7 ≤ uri.length then some (uri.drop 7) else none
  else some uri

/-- An LSP position (zero-based line and character). -/
structure Pos where
  line : Nat
  character : Nat
deriving DecidableEq

/-- An LSP range. -/
structure RangeL where
  start : Pos
  stop : Pos
deriving DecidableEq

/-- Diagnostic severity (protocol.DiagnosticSeverityError / Warning). -/
inductive Severity
  | error
  | warning
deriving DecidableEq

/-- An LSP diagnostic as produced by analyzeDiagnostics. -/
structure Diagnostic where
  range : RangeL
  severity : Severity
  message : GoStr
  source : GoStr
deriving DecidableEq

/-- Try the bracket-argument pattern backslash kw lbrace ([^ rbrace ]+) rbrace
at the start of s: on success return (offset of the argument, its length). -/
def kwAt (s kw : GoStr) : Option (Nat × Nat) :=
  if ('\\' :: (kw ++ [lbr])).isPrefixOf s then
    let off := kw.length + 2
    let arg := (s.drop off).takeWhile (fun c => c ≠ rbr)
    if arg ≠ [] ∧ arg.length < (s.drop off).length then some (off, arg.length)
    else none
  else none

/-- First keyword of the alternation that matches at the start of s. -/
def firstKwMatch : List GoStr → GoStr → Option (Nat × Nat)
  | [], _ => none
  | kw :: kws, s =>
    match kwAt s kw with
    | some r => some r
    | none => firstKwMatch kws s

/-- FindAllStringSubmatchIndex for the pattern
backslash (kw1|kw2|...) lbrace ([^ rbrace ]+) rbrace: the non-overlapping
leftmost matches as (match start, group start, group end, match end),
scanning with fuel bounded by the text length. -/
def scanAux (kws : List GoStr) : Nat → GoStr → Nat → List (Nat × Nat × Nat × Nat)
  | 0, _, _ => []
  | _ + 1, [], _ => []
  | fuel + 1, s@(_ :: tail), pos =>
    match firstKwMatch kws s with
    | some (off, argLen) =>
      (pos, pos + off, pos + off + argLen, pos + off + argLen + 1) ::
        scanAux kws fuel (s.drop (off + argLen + 1)) (pos + off + argLen + 1)
    | none => scanAux kws fuel tail (pos + 1)

/-- All matches of the bracket-argument pattern in a line. -/
def scanBr (kws : List GoStr) (line : GoStr) : List (Nat × Nat × Nat × Nat) :=
  scanAux kws line.length line 0

/-- The slug of a reference argument as normalized by analyzeDiagnostics:
trimmed, with a ".tex" suffix removed. -/
def diagSlug (line : GoStr) (g0 g1 : Nat) : GoStr :=
  goDropSuf (goTrim ((line.drop g0).take (g1 - g0))) (gs ".tex")

/-- The error diagnostic for a broken reference occurrence. -/
def mkRefDiag (n : Nat) (line : GoStr) (sp : Nat × Nat × Nat × Nat) : Diagnostic :=
  ⟨⟨⟨n, sp.2.1⟩, ⟨n, sp.2.2.1⟩⟩, Severity.error,
   gs "Note \x27" ++ diagSlug line sp.2.1 sp.2.2.1 ++ gs "\x27 not found", gs "lx-ls"⟩

/-- The warning diagnostic for a TODO occurrence. -/
def mkTodoDiag (n : Nat) (line : GoStr) (sp : Nat × Nat × Nat × Nat) : Diagnostic :=
  ⟨⟨⟨n, sp.1⟩, ⟨n, sp.2.2.2⟩⟩, Severity.warning,
   gs "TODO: " ++ ((line.drop sp.2.1).take (sp.2.2.1 - sp.2.1)), gs "lx-ls"⟩

/-- The diagnostics produced from a single line: nothing for a comment line;
otherwise an error for every ref/cite occurrence whose slug is not indexed,
then a warning for every todo occurrence. -/
def diagLine (idx : Index) (n : Nat) (line : GoStr) : List Diagnostic :=
  if goStarts (goTrim line) (gs "%") then []
  else
    ((scanBr [gs "ref", gs "cite"] line).filterMap fun sp =>
      if (idxGet idx (diagSlug line sp.2.1 sp.2.2.1)).isSome then none
      else some (mkRefDiag n line sp)) ++
    ((scanBr [gs "todo"] line).map fun sp => mkTodoDiag n line sp)

/-- The per-line loop of analyzeDiagnostics, carrying the line number. -/
def diagsFrom (idx : Index) : Nat → List GoStr → List Diagnostic
  | _, [] => []
  | n, l :: ls => diagLine idx n l ++ diagsFrom idx (n + 1) ls

/-- LanguageServer.analyzeDiagnostics. -/
def analyzeDiagnostics (idx : Index) (content : GoStr) : List Diagnostic :=
  diagsFrom idx 0 (splitCh '\n' content)

/-- A completion item (label, numeric CompletionItemKind, detail, insert text). -/
structure CompletionItem where
  label : GoStr
  kind : Nat
  detail : GoStr
  insertText : GoStr
deriving DecidableEq

/-- protocol.CompletionItemKindReference. -/
def kindReference : Nat := 18

/-- protocol.CompletionItemKindModule. -/
def kindModule : Nat := 9

/-- protocol.CompletionItemKindSnippet. -/
def kindSnippet : Nat := 15

/-- LanguageServer.getRefCompletions: one item per indexed note, label and
insert text the slug, detail the title. -/
def getRefCompletions (idx : Index) : List CompletionItem :=
  (idxAll idx).map fun note => ⟨note.slug, kindReference, note.title, note.slug⟩

/-- LanguageServer.getTemplateCompletions for the given template names
(the names of .sty files with the extension stripped). -/
def getTemplateCompletions (templates : List GoStr) : List CompletionItem :=
  templates.map fun tmpl => ⟨tmpl, kindModule, [], tmpl⟩

/-- LanguageServer.getSnippetCompletions: the fixed snippet items. -/
def snippetItems : List CompletionItem :=
  [⟨gs "\\todo\x7b\x7d", kindSnippet, gs "TODO marker",
    gs "\\todo\x7b$\x7b1:description\x7d\x7d"⟩,
   ⟨gs "\\includegraphics", kindSnippet, gs "Include asset",
    gs "\\includegraphics[width=0.8\\linewidth]\x7b$\x7b1:filename\x7d\x7d"⟩]

/-- The open-span search of the completion regexps, pattern
backslash kw lbrace ([^ rbrace ]*) dollar: the leftmost occurrence of
backslash kw lbrace whose remainder contains no closing brace; the partial
argument is that remainder. -/
def findOpenArg (kw : GoStr) : GoStr → Option GoStr
  | [] => none
  | c :: tail =>
    if ('\\' :: (kw ++ [lbr])).isPrefixOf (c :: tail) ∧
        ¬ ((c :: tail).drop (kw.length + 2)).contains rbr then
      some ((c :: tail).drop (kw.length + 2))
    else findOpenArg kw tail

/-- The items contributed by the reference-completion context of
LanguageServer.Completion: all indexed slugs, filtered by the already-typed
prefix when it is non-empty. -/
def refCtxItems (idx : Index) : Option GoStr → List CompletionItem
  | some p =>
    if p ≠ [] then (getRefCompletions idx).filter (fun it => goStarts it.label p)
    else getRefCompletions idx
  | none => []

/-- The items contributed by the package-completion context of
LanguageServer.Completion. -/
def pkgCtxItems (templates : List GoStr) : Option GoStr → List CompletionItem
  | some p =>
    if p ≠ [] then (getTemplateCompletions templates).filter (fun it => goStarts it.label p)
    else getTemplateCompletions templates
  | none => []

/-- LanguageServer.Completion for a managed, buffered document: the pure core
over the document text, the index and the installed template names.  The two
context checks run on the text of the cursor line before the cursor; their
items concatenate, and the fixed snippets are returned when the collected
list is empty. -/
def Completion (idx : Index) (templates : List GoStr) (content : GoStr)
    (line ch : Nat) : List CompletionItem :=
  if (splitCh '\n' content).length ≤ line then []
  else
    if ((splitCh '\n' content).getD line []).length < ch then []
    else
      if refCtxItems idx
            (findOpenArg (gs "ref") (((splitCh '\n' content).getD line []).take ch)) ++
          pkgCtxItems templates
            (findOpenArg (gs "usepackage") (((splitCh '\n' content).getD line []).take ch))
          = [] then
        snippetItems
      else
        refCtxItems idx
            (findOpenArg (gs "ref") (((splitCh '\n' content).getD line []).take ch)) ++
          pkgCtxItems templates
            (findOpenArg (gs "usepackage") (((splitCh '\n' content).getD line []).take ch))

/-- Follows the claim C4 wording for comparison with the code: strip a
trailing extension (the segment from the last dot on), then drop a leading
8-digit date segment and its hyphen. -/
def stripAnyExt (s : GoStr) : GoStr :=
  if s.contains '.' then ((s.reverse.dropWhile (fun c => c ≠ '.')).drop 1).reverse
  else s

/-- The date-segment rule in the spec's words: if the segment before the
first hyphen is exactly 8 ASCII digits, drop that segment and the hyphen. -/
def dropDateSeg (n : GoStr) : GoStr :=
  let seg := n.takeWhile (fun c => c ≠ '-')
  if n.contains '-' ∧ seg.length = 8 ∧ seg.all isDigitCh then n.drop 9 else n

/-- filenameToSlug as the claim C4 words it: strip a trailing extension, then
apply the date-segment rule. -/
def filenameToSlugSpec (name : GoStr) : GoStr := dropDateSeg (stripAnyExt name)

/-- filenameToSlug as amended: strip only a trailing ".tex" extension, then
apply the date-segment rule. -/
def filenameToSlugTexSpec (name : GoStr) : GoStr :=
  dropDateSeg (goDropSuf name (gs ".tex"))

/-- Tag deduplication in the spec's words: keep the first occurrence of every
tag whose trimmed lower-cased key is non-blank and unseen, preserving the
original casing and order. -/
def dedupSpec (seen : List GoStr) : List GoStr → List GoStr
  | [] => []
  | t :: ts =>
    let k := goTrim (goLower t)
    if k = [] then dedupSpec seen ts
    else if seen.contains k then dedupSpec seen ts
    else t :: dedupSpec (seen ++ [k]) ts

/-- Reference/citation occurrences in the spec's words: for every non-comment
line, every ref/cite bracket occurrence, tagged with the line number and the
line's text. -/
def refCiteOccsFrom : Nat → List GoStr → List (Nat × GoStr × (Nat × Nat × Nat × Nat))
  | _, [] => []
  | n, l :: ls =>
    (if goStarts (goTrim l) (gs "%") then []
     else (scanBr [gs "ref", gs "cite"] l).map fun sp => (n, l, sp)) ++
    refCiteOccsFrom (n + 1) ls

/-- All reference/citation occurrences of a document on non-comment lines. -/
def refCiteOccs (content : GoStr) : List (Nat × GoStr × (Nat × Nat × Nat × Nat)) :=
  refCiteOccsFrom 0 (splitCh '\n' content)

/-- Whether a diagnostic is an error. -/
def isErrDiag (d : Diagnostic) : Bool :=
  match d.severity with
  | Severity.error => true
  | Severity.warning => false

/-! Foundation lemmas about the string model. -/

theorem length_dropWhile_le' (p : Char → Bool) (s : GoStr) :
    (s.dropWhile p).length ≤ s.length :=
  (List.dropWhile_suffix p).sublist.length_le

theorem dropWhile_head_false {p : Char → Bool} {s : GoStr} {a : Char} {r : GoStr}
    (h : s.dropWhile p = a :: r) : p a = false := by
  induction s with
  | nil => simp at h
  | cons x xs ih =>
    rw [List.dropWhile_cons] at h
    cases hpx : p x with
    | true => rw [hpx] at h; simp at h; exact ih h
    | false => rw [hpx] at h; simp at h; rw [← h.1]; exact hpx

theorem dropWhile_eq_self_head {p : Char → Bool} {a : Char} {l : GoStr}
    (h : p a = false) : (a :: l).dropWhile p = a :: l := by
  rw [List.dropWhile_cons, h]; simp

theorem dropWhile_idem {p : Char → Bool} (s : GoStr) :
    (s.dropWhile p).dropWhile p = s.dropWhile p := by
  cases h : s.dropWhile p with
  | nil => rfl
  | cons a r => exact dropWhile_eq_self_head (dropWhile_head_false h)

theorem dropWhile_append_of_fix {p : Char → Bool} {u : GoStr} (v : GoStr)
    (hu : u ≠ []) (h : u.dropWhile p = u) : (u ++ v).dropWhile p = u ++ v := by
  cases u with
  | nil => exact absurd rfl hu
  | cons a r =>
    have ha : p a = false := dropWhile_head_false h
    simpa using @dropWhile_eq_self_head p a (r ++ v) ha

/-- goTrim written as trimming the right end after the left end. -/
theorem goTrim_eq (s : GoStr) :
    goTrim s = ((s.dropWhile isSpc).reverse.dropWhile isSpc).reverse := rfl

theorem goTrim_nil : goTrim [] = [] := rfl

/-- Introduction rule: a string whose first and last characters are not white
space is fixed by goTrim. -/
theorem goTrim_eq_self {s : GoStr}
    (h1 : ∀ a, s.head? = some a → isSpc a = false)
    (h2 : ∀ a, s.getLast? = some a → isSpc a = false) : goTrim s = s := by
  cases s with
  | nil => rfl
  | cons a r =>
    have ha : isSpc a = false := h1 a rfl
    rw [goTrim_eq, dropWhile_eq_self_head ha]
    cases hrev : (a :: r).reverse with
    | nil => simp at hrev
    | cons b t =>
      have hb : isSpc b = false := by
        apply h2
        rw [← List.head?_reverse, hrev]; rfl
      rw [dropWhile_eq_self_head hb, ← hrev, List.reverse_reverse]

theorem goTrim_length_le (s : GoStr) : (goTrim s).length ≤ s.length := by
  rw [goTrim_eq]
  calc ((s.dropWhile isSpc).reverse.dropWhile isSpc).reverse.length
      = ((s.dropWhile isSpc).reverse.dropWhile isSpc).length := List.length_reverse _
    _ ≤ (s.dropWhile isSpc).reverse.length := length_dropWhile_le' _ _
    _ = (s.dropWhile isSpc).length := List.length_reverse _
    _ ≤ s.length := length_dropWhile_le' _ _

/-- A goTrim-fixed string is fixed by the left trim alone. -/
theorem trimmed_fixL {s : GoStr} (h : goTrim s = s) : s.dropWhile isSpc = s := by
  have hsub : (s.dropWhile isSpc).Sublist s := (List.dropWhile_suffix isSpc).sublist
  refine hsub.eq_of_length ?_
  have h1 : (goTrim s).length ≤ (s.dropWhile isSpc).length := by
    rw [goTrim_eq]
    calc ((s.dropWhile isSpc).reverse.dropWhile isSpc).reverse.length
        = ((s.dropWhile isSpc).reverse.dropWhile isSpc).length := List.length_reverse _
      _ ≤ (s.dropWhile isSpc).reverse.length := length_dropWhile_le' _ _
      _ = (s.dropWhile isSpc).length := List.length_reverse _
  rw [h] at h1
  exact Nat.le_antisymm (hsub.length_le) h1

/-- A goTrim-fixed string's reverse is fixed by the left trim. -/
theorem trimmed_fixR {s : GoStr} (h : goTrim s = s) :
    s.reverse.dropWhile isSpc = s.reverse := by
  have hL := trimmed_fixL h
  have h2 : (s.reverse.dropWhile isSpc).reverse = s := by
    calc (s.reverse.dropWhile isSpc).reverse
        = ((s.dropWhile isSpc).reverse.dropWhile isSpc).reverse := by rw [hL]
      _ = goTrim s := rfl
      _ = s := h
  calc s.reverse.dropWhile isSpc
      = (s.reverse.dropWhile isSpc).reverse.reverse := (List.reverse_reverse _).symm
    _ = s.reverse := by rw [h2]

/-- Elimination: the first character of a goTrim-fixed string is not white space. -/
theorem trimmed_head {s : GoStr} (h : goTrim s = s) :
    ∀ a, s.head? = some a → isSpc a = false := by
  intro a ha
  cases s with
  | nil => simp at ha
  | cons x r =>
    simp at ha
    subst ha
    exact dropWhile_head_false (trimmed_fixL h)

/-- Elimination: the last character of a goTrim-fixed string is not white space. -/
theorem trimmed_last {s : GoStr} (h : goTrim s = s) :
    ∀ a, s.getLast? = some a → isSpc a = false := by
  intro a ha
  cases hrev : s.reverse with
  | nil =>
    have : s = [] := by simpa using congrArg List.reverse hrev
    subst this; simp at ha
  | cons b t =>
    have hb : s.getLast? = some b := by
      rw [← List.head?_reverse, hrev]; rfl
    rw [hb] at ha
    injection ha with ha
    subst ha
    have hfx := trimmed_fixR h
    rw [hrev] at hfx
    exact dropWhile_head_false hfx

/-- goTrim is idempotent. -/
theorem goTrim_idem (s : GoStr) : goTrim (goTrim s) = goTrim s := by
  apply goTrim_eq_self
  · intro a ha
    have hfix : (s.dropWhile isSpc).dropWhile isSpc = s.dropWhile isSpc :=
      dropWhile_idem s
    cases hu : s.dropWhile isSpc with
    | nil => rw [goTrim_eq, hu] at ha; simp at ha
    | cons x u =>
      have hx : isSpc x = false := by rw [hu] at hfix; exact dropWhile_head_false hfix
      rw [goTrim_eq, hu] at ha
      cases hw : (x :: u).reverse.dropWhile isSpc with
      | nil => rw [hw] at ha; simp at ha
      | cons y w =>
        rw [hw] at ha
        rw [List.head?_reverse] at ha
        obtain ⟨pre, hpre⟩ : (y :: w) <:+ (x :: u).reverse := by
          rw [← hw]; exact List.dropWhile_suffix _
        have hall : ((x :: u).reverse).getLast? = some a := by
          rw [← hpre, List.getLast?_append_of_ne_nil _ (by simp)]; exact ha
        rw [List.getLast?_reverse] at hall
        simp at hall
        rw [← hall]
        exact hx
  · intro a ha
    rw [goTrim_eq] at ha
    cases hw : (s.dropWhile isSpc).reverse.dropWhile isSpc with
    | nil => rw [hw] at ha; simp at ha
    | cons y w =>
      rw [hw] at ha
      rw [List.getLast?_reverse] at ha
      simp at ha
      rw [← ha]
      exact dropWhile_head_false hw


/-! Lemmas about membership and contains. -/

theorem contains_eq_false {s : GoStr} {c : Char} (h : c ∉ s) : s.contains c = false := by
  simp [List.contains, List.elem_eq_mem, h]

theorem contains_eq_true {s : GoStr} {c : Char} (h : c ∈ s) : s.contains c = true := by
  simp [List.contains, List.elem_eq_mem, h]

/-! Lemmas about splitting and joining. -/

theorem joinSep_nil (sep : GoStr) : joinSep sep [] = [] := rfl

theorem joinSep_single (sep x : GoStr) : joinSep sep [x] = x := rfl

theorem joinSep_cons2 (sep x y : GoStr) (ys : List GoStr) :
    joinSep sep (x :: y :: ys) = x ++ sep ++ joinSep sep (y :: ys) := rfl

theorem joinNl_nil : joinNl [] = [] := rfl

theorem joinNl_cons (l : GoStr) (ls : List GoStr) :
    joinNl (l :: ls) = l ++ '\n' :: joinNl ls := rfl

theorem splitCh_nil (c : Char) : splitCh c [] = [[]] := rfl

theorem splitCh_cons (c x : Char) (xs : GoStr) :
    splitCh c (x :: xs) =
      if x = c then [] :: splitCh c xs
      else
        match splitCh c xs with
        | [] => [[x]]
        | y :: ys => (x :: y) :: ys := rfl

theorem splitCh_ne_nil (c : Char) (s : GoStr) : splitCh c s ≠ [] := by
  cases s with
  | nil => simp [splitCh]
  | cons x xs =>
    rw [splitCh_cons]
    split
    · simp
    · split <;> simp

theorem splitCh_of_not_mem {c : Char} {s : GoStr} (h : c ∉ s) : splitCh c s = [s] := by
  induction s with
  | nil => rfl
  | cons x xs ih =>
    rw [splitCh_cons]
    have hx : ¬ x = c := fun he => h (he ▸ List.mem_cons_self x xs)
    rw [if_neg hx, ih (fun hm => h (List.mem_cons_of_mem x hm))]

theorem splitCh_cons_ne {c a : Char} (h : ¬ a = c) {s : GoStr} {y : GoStr}
    {ys : List GoStr} (hs : splitCh c s = y :: ys) :
    splitCh c (a :: s) = (a :: y) :: ys := by
  rw [splitCh_cons, if_neg h, hs]

theorem splitCh_append {c : Char} {x : GoStr} (r : GoStr) (h : c ∉ x) :
    splitCh c (x ++ c :: r) = x :: splitCh c r := by
  induction x with
  | nil => simp [splitCh_cons]
  | cons a xs ih =>
    have ha : ¬ a = c := fun he => h (he ▸ List.mem_cons_self a xs)
    rw [List.cons_append]
    exact splitCh_cons_ne ha (ih (fun hm => h (List.mem_cons_of_mem a hm)))

theorem splitCh_joinSep {c : Char} (parts : List GoStr) (hne : parts ≠ [])
    (hp : ∀ p ∈ parts, c ∉ p) : splitCh c (joinSep [c] parts) = parts := by
  induction parts with
  | nil => exact absurd rfl hne
  | cons x rest ih =>
    cases rest with
    | nil => rw [joinSep_single]; exact splitCh_of_not_mem (hp x (by simp))
    | cons y ys =>
      rw [joinSep_cons2, List.append_assoc, List.singleton_append]
      rw [splitCh_append _ (hp x (by simp))]
      rw [ih (by simp) (fun p hm => hp p (List.mem_cons_of_mem x hm))]

theorem splitCh_comma_joinSep (t : GoStr) (ts : List GoStr)
    (h : ∀ u ∈ t :: ts, ',' ∉ u) :
    splitCh ',' (joinSep (gs ", ") (t :: ts)) = t :: ts.map (fun u => ' ' :: u) := by
  induction ts generalizing t with
  | nil =>
    rw [joinSep_single]
    simp [splitCh_of_not_mem (h t (by simp))]
  | cons y ys ih =>
    rw [joinSep_cons2, List.append_assoc]
    have h2 : (gs ", ") ++ joinSep (gs ", ") (y :: ys)
        = ',' :: ' ' :: joinSep (gs ", ") (y :: ys) := rfl
    rw [h2, splitCh_append _ (h t (by simp))]
    have hy := ih y (by
      intro u hu
      apply h u
      rcases List.mem_cons.mp hu with hu2 | hu2
      · rw [hu2]; exact List.mem_cons_of_mem t (List.mem_cons_self y ys)
      · exact List.mem_cons_of_mem t (List.mem_cons_of_mem y hu2))
    rw [splitCh_cons_ne (by decide) hy]
    simp

/-! Lemmas about the comment-marker stripping loop. -/

theorem stripIter_nil (n : Nat) : stripIter n [] = [] := by cases n <;> rfl

theorem stripIter_stop {a : Char} (h : ¬ a = '%') (n : Nat) (xs : GoStr) :
    stripIter n (a :: xs) = a :: xs := by
  cases n with
  | zero => rfl
  | succ m => rw [stripIter, if_neg h]

theorem stripIter_pct (n : Nat) (xs : GoStr) :
    stripIter (n + 1) ('%' :: xs) = stripIter n (goTrim xs) := by
  rw [stripIter, if_pos rfl]

/-- Appending a trimmed non-empty tail keeps a string goTrim-fixed when its
first character is not white space. -/
theorem goTrim_append_fix {lit : GoStr} {a : Char} (hlit : lit.head? = some a)
    (ha : isSpc a = false) {m : GoStr} (hm : goTrim m = m) (hm0 : m ≠ []) :
    goTrim (lit ++ m) = lit ++ m := by
  apply goTrim_eq_self
  · intro x hx
    cases lit with
    | nil => simp at hlit
    | cons b bs =>
      simp at hlit hx
      rw [← hx, hlit]
      exact ha
  · intro x hx
    rw [List.getLast?_append_of_ne_nil _ hm0] at hx
    exact trimmed_last hm x hx

theorem goTrim_cons_space {m : GoStr} (hm : goTrim m = m) : goTrim (' ' :: m) = m := by
  rw [goTrim_eq]
  have h1 : (' ' :: m).dropWhile isSpc = m.dropWhile isSpc := by
    rw [List.dropWhile_cons]
    have : isSpc ' ' = true := by decide
    rw [this]
    simp
  rw [h1, trimmed_fixL hm, trimmed_fixR hm, List.reverse_reverse]

/-- The stripping loop on a string of the form %% space m with m trimmed,
non-empty, and not starting with a percent sign. -/
theorem stripPct_pp {m : GoStr} {h0 : Char} (hh : m.head? = some h0)
    (_hsp : isSpc h0 = false) (hpc : ¬ h0 = '%') (hm : goTrim m = m) :
    stripPct ('%' :: '%' :: ' ' :: m) = m := by
  obtain ⟨m', hm'⟩ : ∃ m', m = h0 :: m' := by
    cases m with
    | nil => simp at hh
    | cons a r => simp at hh; exact ⟨r, by rw [hh]⟩
  have hm0 : m ≠ [] := by rw [hm']; simp
  have step1 : goTrim ('%' :: ' ' :: m) = '%' :: ' ' :: m := by
    have he : ('%' :: ' ' :: m) = ['%', ' '] ++ m := rfl
    rw [he]
    exact @goTrim_append_fix ['%', ' '] '%' rfl (by decide) m hm hm0
  have step2 : goTrim (' ' :: m) = m := goTrim_cons_space hm
  show stripIter ('%' :: '%' :: ' ' :: m).length ('%' :: '%' :: ' ' :: m) = m
  have hlen : ('%' :: '%' :: ' ' :: m).length = (m.length + 2) + 1 := by simp
  rw [hlen, stripIter_pct, step1]
  have hlen2 : m.length + 2 = (m.length + 1) + 1 := rfl
  rw [hlen2, stripIter_pct, step2, hm']
  exact stripIter_stop hpc _ _

/-- The takeWhile of a word run followed by a non-word character. -/
theorem takeWhile_append_stop {p : Char → Bool} {w : GoStr} (hw : ∀ c ∈ w, p c = true)
    {b : Char} (hb : p b = false) (r : GoStr) :
    (w ++ b :: r).takeWhile p = w := by
  induction w with
  | nil => simp [List.takeWhile_cons, hb]
  | cons a as ih =>
    rw [List.cons_append, List.takeWhile_cons, hw a (by simp)]
    simp only [if_true]
    rw [ih (fun c hc => hw c (List.mem_cons_of_mem a hc))]

/-- Regexp white space is white space. -/
theorem isRxSpace_isSpc {c : Char} (h : isRxSpace c = true) : isSpc c = true := by
  simp [isRxSpace, decide_eq_true_eq] at h
  simp [isSpc, decide_eq_true_eq]
  tauto

/-- The field-line regexp on a line of the form w colon space V with w a
non-empty word and V trimmed and newline-free. -/
theorem matchFieldValue_eq {w : GoStr} (hw0 : w ≠ [])
    (hw : ∀ c ∈ w, isWordChar c = true) {V : GoStr} (hV : goTrim V = V)
    (hnl : '\n' ∉ V) :
    matchFieldValue (w ++ ':' :: ' ' :: V) = some (w, V) := by
  have htw : (w ++ ':' :: ' ' :: V).takeWhile isWordChar = w :=
    takeWhile_append_stop hw (by decide) _
  have hdw : (' ' :: V).dropWhile isRxSpace = V := by
    rw [List.dropWhile_cons]
    have hsp : isRxSpace ' ' = true := by decide
    rw [hsp]
    simp only [if_true]
    cases V with
    | nil => rfl
    | cons a r =>
      have ha : isSpc a = false := trimmed_head hV a rfl
      have ha2 : isRxSpace a = false := by
        cases hq : isRxSpace a with
        | false => rfl
        | true => rw [isRxSpace_isSpc hq] at ha; cases ha
      exact dropWhile_eq_self_head ha2
  rw [matchFieldValue, htw, if_neg hw0, List.drop_left]
  show (if ((' ' :: V).dropWhile isRxSpace).contains '\n' = true then none
        else some (w, (' ' :: V).dropWhile isRxSpace)) = some (w, V)
  rw [hdw, contains_eq_false hnl]
  simp

/-! Lemmas for the slug resolver. -/

theorem goSplitTwo_pos {c : Char} {s : GoStr} (h : s.contains c = true) :
    goSplitTwo c s = [s.takeWhile (fun x => x ≠ c), (s.dropWhile (fun x => x ≠ c)).drop 1] := by
  rw [goSplitTwo, if_pos h]

theorem goSplitTwo_neg {c : Char} {s : GoStr} (h : ¬ s.contains c = true) :
    goSplitTwo c s = [s] := by
  rw [goSplitTwo, if_neg h]

theorem all_digit_pred_eq (a : GoStr) :
    (a.all fun ch => ¬ (ch < '0' ∨ '9' < ch)) = a.all isDigitCh := by
  induction a with
  | nil => rfl
  | cons c cs ih =>
    simp only [List.all_cons, ih]
    have hcc : (decide ¬ (c < '0' ∨ '9' < c)) = isDigitCh c := by
      rw [isDigitCh]
      rw [decide_eq_decide]
      rw [not_or, not_lt, not_lt]
    rw [hcc]

theorem c4_slug_eq (name : GoStr) : parseFilenameToSlug name = filenameToSlugTexSpec name := by
  rw [parseFilenameToSlug, filenameToSlugTexSpec, dropDateSeg]
  by_cases hc : (goDropSuf name (gs ".tex")).contains '-' = true
  · rw [goSplitTwo_pos hc]
    simp only [List.length_cons, List.length_nil, List.getD_cons_zero, List.getD_cons_succ]
    rw [if_pos trivial, all_digit_pred_eq]
    by_cases h8 : ((goDropSuf name (gs ".tex")).takeWhile fun x => x ≠ '-').length = 8 ∧
        (((goDropSuf name (gs ".tex")).takeWhile fun x => x ≠ '-').all isDigitCh) = true
    · rw [if_pos h8, if_pos ⟨hc, h8.1, h8.2⟩]
      have hsplit : ((goDropSuf name (gs ".tex")).takeWhile fun x => x ≠ '-') ++
          ((goDropSuf name (gs ".tex")).dropWhile fun x => x ≠ '-') =
          goDropSuf name (gs ".tex") := List.takeWhile_append_dropWhile _ _
      have h9 : (goDropSuf name (gs ".tex")).drop 9 =
          ((goDropSuf name (gs ".tex")).dropWhile fun x => x ≠ '-').drop 1 := by
        conv_lhs => rw [← hsplit]
        rw [show (9 : Nat) = ((goDropSuf name (gs ".tex")).takeWhile fun x => x ≠ '-').length + 1 by
          rw [h8.1]]
        rw [List.drop_append]
      rw [h9]
    · rw [if_neg h8, if_neg (by
        intro hcon
        exact h8 ⟨hcon.2.1, hcon.2.2⟩)]
  · rw [goSplitTwo_neg hc]
    rw [if_neg (by simp)]
    rw [if_neg (by
      intro hcon
      exact hc hcon.1)]

/-- Claim C4 counterexample: the code does not strip an arbitrary trailing
extension — a ".md" extension is kept, while the claim's general reading
("strips a trailing extension") would strip it. -/
theorem c4_counterexample :
    parseFilenameToSlug (gs "note.md") = gs "note.md" ∧
    filenameToSlugSpec (gs "note.md") = gs "note" ∧
    parseFilenameToSlug (gs "note.md") ≠ filenameToSlugSpec (gs "note.md") :=
  ⟨by decide, by decide, by decide⟩

/-- Claim C4 (amended): parseFilenameToSlug strips only a trailing ".tex"
extension (not an arbitrary extension); if the segment of the result before
the first hyphen is exactly 8 ASCII digits it drops that segment and the
hyphen, otherwise it returns the ".tex"-stripped name unchanged.  The two
concrete examples of the claim hold, and the function is pure and total by
construction. -/
theorem c4_filename_to_slug :
    (∀ name, parseFilenameToSlug name = filenameToSlugTexSpec name) ∧
    parseFilenameToSlug (gs "20240101-graph-theory.tex") = gs "graph-theory" ∧
    parseFilenameToSlug (gs "simple.tex") = gs "simple" :=
  ⟨c4_slug_eq, by decide, by decide⟩

/-! Lemmas for uriToPath. -/

/-- Claim C10 counterexample: on the three-character URI "abc" — which is not
exactly "file://" — Go's path[7:] slice panics (modelled as none) instead of
returning the empty remainder the claim prescribes. -/
theorem c10_counterexample : uriToPath (gs "abc") ≠ some ((gs "abc").drop 7) := by
  decide

/-- Claim C10 (amended): for every URI u other than exactly "file://",
uriToPath returns u with its first 7 characters removed when u is empty or
has at least 7 characters — even when u does not begin with "file://" — and
panics (none in the model) on a non-empty u shorter than 7 characters.
IsManaged and the handlers therefore judge a non-file URI by the string left
after dropping its first 7 characters whenever that slice is defined. -/
theorem c10_uri_to_path (u : GoStr) (hne : u ≠ gs "file://") :
    (u = [] ∨ 7 ≤ u.length → uriToPath u = some (u.drop 7)) ∧
    (u ≠ [] → u.length < 7 → uriToPath u = none) := by
  rw [uriToPath, goDropPre]
  by_cases hp : goStarts u (gs "file://") = true
  · rw [if_pos hp]
    obtain ⟨t, ht⟩ : ∃ t, u = gs "file://" ++ t := by
      rw [goStarts] at hp
      obtain ⟨t, ht⟩ := (List.isPrefixOf_iff_prefix.mp hp)
      exact ⟨t, ht.symm⟩
    have hlen7 : (gs "file://").length = 7 := by decide
    have ht0 : t ≠ [] := by
      intro h0
      rw [h0, List.append_nil] at ht
      exact hne ht
    have hdrop : u.drop (gs "file://").length = t := by
      rw [ht, List.drop_left]
    have hne2 : u.drop (gs "file://").length ≠ [] := by rw [hdrop]; exact ht0
    rw [if_pos hne2]
    have hlen : 7 ≤ u.length := by
      rw [ht, List.length_append, hlen7]
      omega
    rw [if_pos hlen]
    exact ⟨fun _ => rfl, fun _ hlt => absurd hlt (by omega)⟩
  · rw [if_neg hp]
    by_cases h0 : u = []
    · subst h0
      rw [if_neg (by simp)]
      exact ⟨fun _ => rfl, fun hx _ => absurd rfl hx⟩
    · rw [if_pos h0]
      constructor
      · intro hcase
        rcases hcase with hcase | hcase
        · exact absurd hcase h0
        · rw [if_pos hcase]
      · intro _ hlt
        rw [if_neg (by omega)]

/-- Witness for claim C10's amended theorem at a well-formed file URI. -/
theorem c10_witness :
    gs "file:///home/a.tex" ≠ gs "file://" ∧
    uriToPath (gs "file:///home/a.tex") = some ((gs "file:///home/a.tex").drop 7) :=
  ⟨by decide, (c10_uri_to_path (gs "file:///home/a.tex") (by decide)).1 (Or.inr (by decide))⟩


/-! Lemmas for tag deduplication. -/

theorem dedupGo_spec : ∀ (ts keys kept : List GoStr),
    dedupGo keys kept ts = kept ++ dedupSpec keys ts := by
  intro ts
  induction ts with
  | nil => intro keys kept; simp [dedupGo, dedupSpec]
  | cons t ts ih =>
    intro keys kept
    simp only [dedupGo, dedupSpec]
    by_cases hn : goTrim (goLower t) = []
    · rw [if_neg (fun h => h.1 hn), if_pos hn, ih]
    · by_cases hk : keys.contains (goTrim (goLower t)) = true
      · rw [if_neg (fun h => h.2 hk), if_neg hn, if_pos hk, ih]
      · rw [if_pos ⟨hn, hk⟩, if_neg hn, if_neg hk, ih]
        simp

/-- Claim C9: tag normalization deduplicates case-insensitively keeping the
first-seen casing and order (the code's fold agrees with the spec's
first-occurrence description), and the tag list parsed from
"math, physics, math, calculus, Physics" normalizes to exactly
math, physics, calculus in that order. -/
theorem c9_tag_dedup :
    (∀ ts, dedupTags ts = dedupSpec [] ts) ∧
    (Parse false
      (gs "%% Metadata\n%% title: T\n%% tags: math, physics, math, calculus, Physics\n")).1.metadata.tags
      = [gs "math", gs "physics", gs "calculus"] :=
  ⟨fun ts => dedupGo_spec ts [] [], by decide⟩

/-! Lemmas for the incremental index update. -/

theorem idxDelete_count {idx : Index} {slug : GoStr}
    (hnd : (idx.map Prod.fst).Nodup) (hmem : slug ∈ idx.map Prod.fst) :
    idxCount (idxDelete idx slug) + 1 = idxCount idx := by
  induction idx with
  | nil => simp at hmem
  | cons p rest ih =>
    rw [List.map_cons, List.nodup_cons] at hnd
    rw [List.map_cons] at hmem
    rw [idxDelete, idxCount, List.filter_cons]
    rcases List.mem_cons.mp hmem with he | hm
    · have hf : decide (p.1 ≠ slug) = false := by
        simp [he]
      rw [hf]
      simp only [Bool.false_eq_true, if_false]
      have hrest : rest.filter (fun q => decide (q.1 ≠ slug)) = rest := by
        rw [List.filter_eq_self]
        intro q hq
        simp only [decide_eq_true_eq]
        intro hqs
        exact hnd.1 (by rw [← he, ← hqs]; exact List.mem_map_of_mem Prod.fst hq)
      rw [hrest]
      simp [idxCount]
    · have hp : ¬ p.1 = slug := by
        intro he
        exact hnd.1 (he ▸ hm)
      have hf : decide (p.1 ≠ slug) = true := by simp [hp]
      rw [hf]
      simp only [if_true]
      have h2 := ih hnd.2 hm
      simp only [idxDelete, idxCount, List.length_cons] at h2 ⊢
      omega

/-- Claim C5: the incremental updater deletes the slug derived from the
path's basename (independently of any indexed header) when the path is gone
— decreasing the count by exactly one when that slug was indexed — leaves
the index untouched when the file cannot be read (the only per-file failure
the lenient parser surfaces), and otherwise re-parses and upserts. -/
theorem c5_update_index (fs : GoStr → FileState) (gnp : GoStr → GoStr)
    (idx : Index) (path : GoStr) :
    (fs path = FileState.absent →
      updateIndexForFile fs gnp idx path = idxDelete idx (parseFilenameToSlug (goBase path)) ∧
      ((idx.map Prod.fst).Nodup → parseFilenameToSlug (goBase path) ∈ idx.map Prod.fst →
        idxCount (updateIndexForFile fs gnp idx path) + 1 = idxCount idx)) ∧
    (fs path ≠ FileState.absent → fs (gnp (goBase path)) = FileState.unreadable →
      updateIndexForFile fs gnp idx path = idx) ∧
    (∀ c, fs path ≠ FileState.absent → fs (gnp (goBase path)) = FileState.readable c →
      updateIndexForFile fs gnp idx path =
        idxSet idx (parseNoteHeader (goBase path) c).slug (parseNoteHeader (goBase path) c)) := by
  refine ⟨?_, ?_, ?_⟩
  · intro hab
    have he : updateIndexForFile fs gnp idx path =
        idxDelete idx (parseFilenameToSlug (goBase path)) := by
      rw [updateIndexForFile, if_pos hab]
    refine ⟨he, fun hnd hmem => ?_⟩
    rw [he]
    exact idxDelete_count hnd hmem
  · intro hnab hunr
    rw [updateIndexForFile, if_neg hnab, hunr]
  · intro c hnab hrd
    rw [updateIndexForFile, if_neg hnab, hrd]

/-- Witness for claim C5's theorem: a deletion that removes the only entry,
an unreadable file that changes nothing, and a readable file that upserts. -/
theorem c5_witness :
    updateIndexForFile (fun _ => FileState.absent) (fun p => p)
      [(gs "a", ⟨gs "A", [], [], gs "a", gs "a.tex"⟩)] (gs "/v/20240101-a.tex") = [] ∧
    idxCount (updateIndexForFile (fun _ => FileState.absent) (fun p => p)
      [(gs "a", ⟨gs "A", [], [], gs "a", gs "a.tex"⟩)] (gs "/v/20240101-a.tex")) + 1 = 1 ∧
    updateIndexForFile (fun _ => FileState.unreadable) (fun p => p) [] (gs "/v/a.tex") = [] ∧
    updateIndexForFile (fun _ => FileState.readable (gs "%% Metadata\n%% title: A\n"))
      (fun p => p) [] (gs "/v/a.tex") =
      idxSet [] (parseNoteHeader (gs "a.tex") (gs "%% Metadata\n%% title: A\n")).slug
        (parseNoteHeader (gs "a.tex") (gs "%% Metadata\n%% title: A\n")) := by
  have h1 := (c5_update_index (fun _ => FileState.absent) (fun p => p)
      [(gs "a", ⟨gs "A", [], [], gs "a", gs "a.tex"⟩)] (gs "/v/20240101-a.tex")).1 rfl
  have h2 := (c5_update_index (fun _ => FileState.unreadable) (fun p => p) []
      (gs "/v/a.tex")).2.1 (by decide) rfl
  have h3 := (c5_update_index (fun _ => FileState.readable (gs "%% Metadata\n%% title: A\n"))
      (fun p => p) [] (gs "/v/a.tex")).2.2 (gs "%% Metadata\n%% title: A\n") (by decide) rfl
  exact ⟨h1.1.trans (by decide), h1.2 (by decide) (by decide), h2, h3⟩

/-! Lemmas for the diagnostics line skip. -/

theorem diagLine_line {idx : Index} {n : Nat} {line : GoStr} :
    ∀ d ∈ diagLine idx n line, d.range.start.line = n := by
  intro d hd
  rw [diagLine] at hd
  by_cases hcmt : goStarts (goTrim line) (gs "%") = true
  · rw [if_pos hcmt] at hd
    simp at hd
  · rw [if_neg hcmt] at hd
    rcases List.mem_append.mp hd with h | h
    · obtain ⟨sp, _, hf⟩ := List.mem_filterMap.mp h
      by_cases hex : (idxGet idx (diagSlug line sp.2.1 sp.2.2.1)).isSome = true
      · rw [if_pos hex] at hf
        cases hf
      · rw [if_neg hex] at hf
        injection hf with hf
        rw [← hf]
        rfl
    · obtain ⟨sp, _, hf⟩ := List.mem_map.mp h
      rw [← hf]
      rfl

theorem diagsFrom_line_ge {idx : Index} :
    ∀ (ls : List GoStr) (n : Nat) (d : Diagnostic), d ∈ diagsFrom idx n ls →
      n ≤ d.range.start.line := by
  intro ls
  induction ls with
  | nil =>
    intro n d hd
    rw [diagsFrom] at hd
    simp at hd
  | cons l ls ih =>
    intro n d hd
    rw [diagsFrom] at hd
    rcases List.mem_append.mp hd with h | h
    · exact Nat.le_of_eq (diagLine_line d h).symm
    · exact Nat.le_of_succ_le (ih (n + 1) d h)

theorem diagsFrom_comment {idx : Index} :
    ∀ (ls : List GoStr) (n0 i : Nat),
      goStarts (goTrim (ls.getD i [])) (gs "%") = true →
      ∀ d ∈ diagsFrom idx n0 ls, d.range.start.line ≠ n0 + i := by
  intro ls
  induction ls with
  | nil =>
    intro n0 i _ d hd
    rw [diagsFrom] at hd
    simp at hd
  | cons l ls ih =>
    intro n0 i hc d hd hline
    rw [diagsFrom] at hd
    rcases List.mem_append.mp hd with h | h
    · have hn := diagLine_line d h
      cases i with
      | zero =>
        rw [List.getD_cons_zero] at hc
        rw [diagLine, if_pos hc] at h
        simp at h
      | succ j =>
        rw [hn] at hline
        omega
    · cases i with
      | zero =>
        have hge := diagsFrom_line_ge ls (n0 + 1) d h
        omega
      | succ j =>
        rw [List.getD_cons_succ] at hc
        exact ih (n0 + 1) j hc d h (by omega)

/-- Claim C6: a line whose trimmed text begins with the comment marker
contributes no diagnostic — no diagnostic produced by analyzeDiagnostics is
located on such a line, even when the line contains reference or TODO markup. -/
theorem c6_comment_lines (idx : Index) (content : GoStr) (i : Nat)
    (hc : goStarts (goTrim ((splitCh '\n' content).getD i [])) (gs "%") = true) :
    ∀ d ∈ analyzeDiagnostics idx content, d.range.start.line ≠ i := by
  intro d hd
  rw [analyzeDiagnostics] at hd
  have hne := diagsFrom_comment (splitCh '\n' content) 0 i hc d hd
  simpa using hne

/-- Witness for claim C6's theorem: a comment line containing both reference
and TODO markup yields no diagnostics at all. -/
theorem c6_witness :
    goStarts (goTrim ((splitCh '\n' (gs "% \\ref\x7bmissing\x7d \\todo\x7bx\x7d")).getD 0 []))
      (gs "%") = true ∧
    ∀ d ∈ analyzeDiagnostics [] (gs "% \\ref\x7bmissing\x7d \\todo\x7bx\x7d"),
      d.range.start.line ≠ 0 :=
  ⟨by decide, c6_comment_lines [] (gs "% \\ref\x7bmissing\x7d \\todo\x7bx\x7d") 0 (by decide)⟩


/-! Lemmas for completion. -/

theorem filter_goStarts_nil (l : List CompletionItem) :
    l.filter (fun it => goStarts it.label []) = l := by
  rw [List.filter_eq_self]
  intro it _
  exact List.isPrefixOf_nil_left

/-- Claim C3 counterexample: with only the slug graph-theory indexed and the
text before the cursor ending in an open reference span with partial
argument "z", the reference context applies and no slug matches, yet the
fixed snippet completions are returned — not the empty list of matching
slugs the claim prescribes. -/
theorem c3_counterexample :
    Completion [(gs "graph-theory", ⟨gs "Graph Theory", [], [], gs "graph-theory", gs "x.tex"⟩)]
      [] (gs "\\ref\x7bz") 0 6 = snippetItems ∧
    snippetItems ≠ [] ∧
    findOpenArg (gs "ref") (((splitCh '\n' (gs "\\ref\x7bz")).getD 0 []).take 6)
      = some (gs "z") ∧
    (getRefCompletions
        [(gs "graph-theory", ⟨gs "Graph Theory", [], [], gs "graph-theory", gs "x.tex"⟩)]).filter
      (fun it => goStarts it.label (gs "z")) = [] := by
  refine ⟨by decide, by decide, by decide, by decide⟩

/-- Claim C3 (amended): when the text before the cursor ends with an open
reference span with partial argument p and the package-include context does
not apply, Completion returns exactly the indexed slugs having p as a
case-sensitive prefix (label = slug, detail = title) when at least one slug
matches; when no item matches, the accumulated item list is empty and the
fixed snippet completions are returned instead (the snippet fallback fires
whenever the collected items are empty, not only when neither context
applies). -/
theorem c3_completion (idx : Index) (tmpl : List GoStr) (content : GoStr)
    (ln ch : Nat) (p : GoStr)
    (hln : ln < (splitCh '\n' content).length)
    (hch : ch ≤ ((splitCh '\n' content).getD ln []).length)
    (href : findOpenArg (gs "ref") (((splitCh '\n' content).getD ln []).take ch) = some p)
    (hpkg : findOpenArg (gs "usepackage") (((splitCh '\n' content).getD ln []).take ch) = none) :
    Completion idx tmpl content ln ch =
      (if (getRefCompletions idx).filter (fun it => goStarts it.label p) = []
       then snippetItems
       else (getRefCompletions idx).filter (fun it => goStarts it.label p)) := by
  rw [Completion]
  rw [if_neg (Nat.not_le.mpr hln), if_neg (Nat.not_lt.mpr hch), href, hpkg]
  have hpkg2 : pkgCtxItems tmpl none = [] := rfl
  rw [hpkg2, List.append_nil]
  by_cases hp : p = []
  · subst hp
    have hr : refCtxItems idx (some []) = getRefCompletions idx := by
      rw [refCtxItems, if_neg (fun h => h rfl)]
    rw [hr, filter_goStarts_nil]
  · have hr : refCtxItems idx (some p) =
        (getRefCompletions idx).filter (fun it => goStarts it.label p) := by
      rw [refCtxItems, if_pos hp]
    rw [hr]

/-- Witness for claim C3's amended theorem: partial argument "gr" matches the
single indexed slug graph-theory. -/
theorem c3_witness :
    Completion [(gs "graph-theory", ⟨gs "Graph Theory", [], [], gs "graph-theory", gs "x.tex"⟩)]
      [] (gs "See \\ref\x7bgr") 0 11 =
      (if (getRefCompletions
            [(gs "graph-theory", ⟨gs "Graph Theory", [], [], gs "graph-theory", gs "x.tex"⟩)]).filter
          (fun it => goStarts it.label (gs "gr")) = []
       then snippetItems
       else (getRefCompletions
            [(gs "graph-theory", ⟨gs "Graph Theory", [], [], gs "graph-theory", gs "x.tex"⟩)]).filter
          (fun it => goStarts it.label (gs "gr"))) :=
  c3_completion _ _ _ _ _ _ (by decide) (by decide) (by decide) (by decide)


/-! Infrastructure for symbolic parsing of metadata blocks. -/

theorem map_eq_self_of {f : GoStr → GoStr} :
    ∀ {l : List GoStr}, (∀ x ∈ l, f x = x) → l.map f = l := by
  intro l
  induction l with
  | nil => intro _; rfl
  | cons x xs ih =>
    intro h
    rw [List.map_cons, h x (by simp), ih (fun y hy => h y (List.mem_cons_of_mem x hy))]

theorem dropCR_eq_self {s : GoStr}
    (h : ∀ a, s.getLast? = some a → isSpc a = false) : dropCR s = s := by
  rw [dropCR]
  cases hl : s.getLast? with
  | none => simp
  | some a =>
    rw [if_neg]
    intro hcon
    injection hcon with hcon
    have hx := h a hl
    rw [hcon] at hx
    exact absurd hx (by decide)

theorem joinSep_head_ne_nil (sep : GoStr) (x : GoStr) (ys : List GoStr) (hx : x ≠ []) :
    joinSep sep (x :: ys) ≠ [] := by
  cases ys with
  | nil => rw [joinSep_single]; exact hx
  | cons y ys =>
    rw [joinSep_cons2]
    simp only [ne_eq, List.append_eq_nil]
    intro hcon
    exact hx hcon.1.1

theorem getLast?_joinSep_nl {sep : GoStr} :
    ∀ (parts : List GoStr), parts ≠ [] → (∀ p ∈ parts, p ≠ []) →
      ∃ q, parts.getLast? = some q ∧ (joinSep sep parts).getLast? = q.getLast? := by
  intro parts
  induction parts with
  | nil => intro h _; exact absurd rfl h
  | cons x rest ih =>
    intro _ hp
    cases rest with
    | nil => exact ⟨x, rfl, by rw [joinSep_single]⟩
    | cons y ys =>
      obtain ⟨q, hq, hqq⟩ := ih (by simp) (fun p hm => hp p (List.mem_cons_of_mem x hm))
      have hJ : joinSep sep (y :: ys) ≠ [] := joinSep_head_ne_nil _ y ys (hp y (by simp))
      refine ⟨q, ?_, ?_⟩
      · rw [List.getLast?_cons_cons]
        exact hq
      · rw [joinSep_cons2, List.append_assoc,
          List.getLast?_append_of_ne_nil _ (by
            simp only [ne_eq, List.append_eq_nil, not_and]
            intro _
            exact hJ)]
        rw [List.getLast?_append_of_ne_nil _ hJ]
        exact hqq

theorem scanTokens_joinSep (parts : List GoStr) (hne : parts ≠ [])
    (hnl : ∀ p ∈ parts, '\n' ∉ p)
    (hlast : ∀ p ∈ parts, ∀ a, p.getLast? = some a → isSpc a = false)
    (hpne : ∀ p ∈ parts, p ≠ []) :
    scanTokens (joinSep (gs "\n") parts) = parts := by
  obtain ⟨q, hq, hqq⟩ := getLast?_joinSep_nl parts hne hpne
  have hqmem : q ∈ parts := List.mem_of_mem_getLast? hq
  have hblock : joinSep (gs "\n") parts ≠ [] := by
    cases parts with
    | nil => exact absurd rfl hne
    | cons x rest => exact joinSep_head_ne_nil _ x rest (hpne x (by simp))
  rw [scanTokens, if_neg (fun h => hblock h)]
  have hlnl : ¬ (joinSep (gs "\n") parts).getLast? = some '\n' := by
    rw [hqq]
    intro hcon
    have := hlast q hqmem '\n' hcon
    exact absurd this (by decide)
  rw [if_neg hlnl]
  have hsep : (gs "\n") = ['\n'] := rfl
  rw [hsep, splitCh_joinSep parts hne hnl]
  exact map_eq_self_of (fun p hp => dropCR_eq_self (hlast p hp))


/-! Field-line facts: trimming, comment stripping and the field regexp on a
line of the shape %% space w colon space V. -/

theorem fieldLine_trim {w : GoStr} {w0 : Char} (hwh : w.head? = some w0)
    (hw0s : isSpc w0 = false) {V : GoStr} (hV : goTrim V = V) (hV0 : V ≠ []) :
    goTrim (w ++ ':' :: ' ' :: V) = w ++ ':' :: ' ' :: V ∧
    goTrim ('%' :: '%' :: ' ' :: (w ++ ':' :: ' ' :: V)) =
      '%' :: '%' :: ' ' :: (w ++ ':' :: ' ' :: V) := by
  have hm : goTrim (w ++ ':' :: ' ' :: V) = w ++ ':' :: ' ' :: V := by
    cases w with
    | nil => simp at hwh
    | cons b bs =>
      injection hwh with hwh
      apply goTrim_eq_self
      · intro a ha
        simp at ha
        rw [← ha, hwh]
        exact hw0s
      · intro a ha
        rw [List.getLast?_append_of_ne_nil _ (by simp)] at ha
        rw [show (':' :: ' ' :: V) = [':', ' '] ++ V from rfl] at ha
        rw [List.getLast?_append_of_ne_nil _ hV0] at ha
        exact trimmed_last hV a ha
  have hmne : w ++ ':' :: ' ' :: V ≠ [] := by
    cases w with
    | nil => simp
    | cons b bs => simp
  refine ⟨hm, ?_⟩
  have he : ('%' :: '%' :: ' ' :: (w ++ ':' :: ' ' :: V)) =
      ['%', '%', ' '] ++ (w ++ ':' :: ' ' :: V) := rfl
  rw [he]
  exact @goTrim_append_fix ['%', '%', ' '] '%' rfl (by decide) _ hm hmne

theorem fieldLine_strip {w : GoStr} {w0 : Char} (hwh : w.head? = some w0)
    (hw0s : isSpc w0 = false) (hw0p : ¬ w0 = '%')
    {V : GoStr} (hV : goTrim V = V) (hV0 : V ≠ []) :
    stripPct (w ++ ':' :: ' ' :: V) = w ++ ':' :: ' ' :: V ∧
    stripPct ('%' :: '%' :: ' ' :: (w ++ ':' :: ' ' :: V)) = w ++ ':' :: ' ' :: V := by
  have hm := (fieldLine_trim hwh hw0s hV hV0).1
  have hwh2 : (w ++ ':' :: ' ' :: V).head? = some w0 := by
    cases w with
    | nil => simp at hwh
    | cons b bs => simpa using hwh
  constructor
  · obtain ⟨m', hm'⟩ : ∃ m', w ++ ':' :: ' ' :: V = w0 :: m' := by
      cases hx : w ++ ':' :: ' ' :: V with
      | nil => rw [hx] at hwh2; simp at hwh2
      | cons a r =>
        rw [hx] at hwh2
        injection hwh2 with hwh2
        exact ⟨r, by rw [hwh2]⟩
    rw [hm']
    exact stripIter_stop hw0p _ _
  · exact stripPct_pp hwh2 hw0s hw0p hm

/-! Stepping lemmas for the parse loop. -/

theorem parseLoop_nil (strict : Bool) (n : Nat) (r : ParseResult) :
    parseLoop strict n r [] = (r, none) := rfl

theorem parseLoop_skip {l : GoStr} (strict : Bool) (n : Nat) (r : ParseResult)
    (ls : List GoStr)
    (h : goTrim l = [] ∨ goStarts (goTrim l) (gs "%% Metadata") = true ∨
         goStarts (goTrim l) (gs "% Metadata") = true) :
    parseLoop strict n r (l :: ls) = parseLoop strict (n + 1) r ls := by
  simp only [parseLoop]
  rw [if_pos h]

theorem parseLoop_step {l : GoStr} (strict : Bool) (n : Nat) (r r2 : ParseResult)
    (ls : List GoStr)
    (hns : ¬ (goTrim l = [] ∨ goStarts (goTrim l) (gs "%% Metadata") = true ∨
              goStarts (goTrim l) (gs "% Metadata") = true))
    (hp : parseMetadataLine strict l (n + 1) r = (r2, none)) :
    parseLoop strict n r (l :: ls) = parseLoop strict (n + 1) r2 ls := by
  simp only [parseLoop]
  rw [if_neg hns, hp]

theorem parseLoop_err_strict {l : GoStr} (n : Nat) (r r2 : ParseResult)
    (ls : List GoStr) (e : GoStr)
    (hns : ¬ (goTrim l = [] ∨ goStarts (goTrim l) (gs "%% Metadata") = true ∨
              goStarts (goTrim l) (gs "% Metadata") = true))
    (hp : parseMetadataLine true l (n + 1) r = (r2, some e)) :
    parseLoop true n r (l :: ls) = (r2, some e) := by
  simp only [parseLoop]
  rw [if_neg hns, hp]
  rfl

theorem parseLoop_err_lenient {l : GoStr} (n : Nat) (r r2 : ParseResult)
    (ls : List GoStr) (e : GoStr)
    (hns : ¬ (goTrim l = [] ∨ goStarts (goTrim l) (gs "%% Metadata") = true ∨
              goStarts (goTrim l) (gs "% Metadata") = true))
    (hp : parseMetadataLine false l (n + 1) r = (r2, some e)) :
    parseLoop false n r (l :: ls) = parseLoop false (n + 1) r2 ls := by
  simp only [parseLoop]
  rw [if_neg hns, hp]
  rfl


/-! Facts about comma-joined tag lists. -/

theorem not_mem_joinSep {c : Char} {sep : GoStr} (hc : c ∉ sep) :
    ∀ ts : List GoStr, (∀ t ∈ ts, c ∉ t) → c ∉ joinSep sep ts := by
  intro ts
  induction ts with
  | nil => intro _; simp [joinSep_nil]
  | cons x rest ih =>
    intro h
    cases rest with
    | nil => rw [joinSep_single]; exact h x (by simp)
    | cons y ys =>
      rw [joinSep_cons2]
      intro hm
      rcases List.mem_append.mp hm with hm2 | hm2
      · rcases List.mem_append.mp hm2 with hm3 | hm3
        · exact h x (by simp) hm3
        · exact hc hm3
      · exact ih (fun t ht => h t (List.mem_cons_of_mem x ht)) hm2

theorem head?_joinSep (sep : GoStr) (t : GoStr) (rest : List GoStr) (ht : t ≠ []) :
    (joinSep sep (t :: rest)).head? = t.head? := by
  cases rest with
  | nil => rw [joinSep_single]
  | cons y ys =>
    rw [joinSep_cons2, List.append_assoc]
    cases t with
    | nil => exact absurd rfl ht
    | cons a as => rfl

theorem goTrim_joinSep_tags {ts : List GoStr} (h0 : ts ≠ [])
    (hcond : ∀ t ∈ ts, t ≠ [] ∧ goTrim t = t) :
    goTrim (joinSep (gs ", ") ts) = joinSep (gs ", ") ts := by
  cases ts with
  | nil => exact absurd rfl h0
  | cons t rest =>
    apply goTrim_eq_self
    · intro a ha
      rw [head?_joinSep _ t rest (hcond t (by simp)).1] at ha
      exact trimmed_head (hcond t (by simp)).2 a ha
    · intro a ha
      obtain ⟨q, hq, hqq⟩ := getLast?_joinSep_nl (t :: rest) (by simp)
        (fun p hp => (hcond p hp).1)
      rw [hqq] at ha
      exact trimmed_last (hcond q (List.mem_of_mem_getLast? hq)).2 a ha

theorem tags_fold : ∀ (us : List GoStr) (acc : List GoStr),
    (∀ u ∈ us, goTrim u = u ∧ u ≠ []) →
    (us.map (fun u => ' ' :: u)).foldl
      (fun acc t => if goTrim t ≠ [] then acc ++ [goTrim t] else acc) acc
      = acc ++ us := by
  intro us
  induction us with
  | nil => intro acc _; simp
  | cons u us ih =>
    intro acc h
    have hu := h u (by simp)
    simp only [List.map_cons, List.foldl_cons]
    rw [goTrim_cons_space hu.1, if_pos hu.2]
    rw [ih (acc ++ [u]) (fun y hy => h y (List.mem_cons_of_mem u hy))]
    simp

/-! Behaviour of parseMetadataLine on the three field-line shapes. -/

theorem parseMetadataLine_title (strict : Bool) (n : Nat) (r : ParseResult)
    {T : GoStr} (hT : goTrim T = T) (hT0 : T ≠ []) (hnl : '\n' ∉ T)
    (hr : r.metadata.title = []) :
    parseMetadataLine strict ('%' :: '%' :: ' ' :: (gs "title" ++ ':' :: ' ' :: T)) n r =
      ({ r with metadata := { r.metadata with title := T } }, none) := by
  have htrim := (@fieldLine_trim (gs "title") 't' rfl (by decide) T hT hT0).2
  have hstrip := (@fieldLine_strip (gs "title") 't' rfl (by decide) (by decide) T hT hT0).2
  have hmv := @matchFieldValue_eq (gs "title") (by decide) (by decide) T hT hnl
  have hfld : goLower (goTrim (gs "title")) = gs "title" := by decide
  simp only [parseMetadataLine, htrim, hstrip, hmv, hfld, hT]
  rw [if_pos trivial]
  rw [if_neg (fun hc => hc hr)]
  rw [if_neg hT0]

theorem parseMetadataLine_date_invalid (strict : Bool) (n : Nat) (r : ParseResult)
    {v : GoStr} (hv : goTrim v = v) (hv0 : v ≠ []) (hnl : '\n' ∉ v)
    (hval : isValidDate v = false) (hr : r.metadata.date = []) :
    parseMetadataLine strict ('%' :: '%' :: ' ' :: (gs "date" ++ ':' :: ' ' :: v)) n r =
      ({ r with
          errors := r.errors ++ [⟨n, gs "date",
            gs "invalid date format (expected YYYY-MM-DD): " ++ v⟩]
          metadata := { r.metadata with date := v } },
       if strict then some (gs "invalid date format (expected YYYY-MM-DD): " ++ v)
       else none) := by
  have htrim := (@fieldLine_trim (gs "date") 'd' rfl (by decide) v hv hv0).2
  have hstrip := (@fieldLine_strip (gs "date") 'd' rfl (by decide) (by decide) v hv hv0).2
  have hmv := @matchFieldValue_eq (gs "date") (by decide) (by decide) v hv hnl
  have hfld : goLower (goTrim (gs "date")) = gs "date" := by decide
  have hvd : validateDate v = some (gs "invalid date format (expected YYYY-MM-DD): " ++ v) := by
    rw [validateDate, if_neg hv0, if_neg (fun hcon => by rw [hval] at hcon; simp at hcon)]
  simp only [parseMetadataLine, htrim, hstrip, hmv, hfld, hv, hvd]
  rw [if_neg (by decide : ¬ (gs "date" : GoStr) = gs "title")]
  rw [if_pos trivial]
  rw [if_neg (fun hc => hc hr)]
  cases strict <;> rfl

theorem parseMetadataLine_date_valid (strict : Bool) (n : Nat) (r : ParseResult)
    {v : GoStr} (hv : goTrim v = v) (hv0 : v ≠ []) (hnl : '\n' ∉ v)
    (hval : isValidDate v = true) (hr : r.metadata.date = []) :
    parseMetadataLine strict ('%' :: '%' :: ' ' :: (gs "date" ++ ':' :: ' ' :: v)) n r =
      ({ r with metadata := { r.metadata with date := v } }, none) := by
  have htrim := (@fieldLine_trim (gs "date") 'd' rfl (by decide) v hv hv0).2
  have hstrip := (@fieldLine_strip (gs "date") 'd' rfl (by decide) (by decide) v hv hv0).2
  have hmv := @matchFieldValue_eq (gs "date") (by decide) (by decide) v hv hnl
  have hfld : goLower (goTrim (gs "date")) = gs "date" := by decide
  have hvd : validateDate v = none := by
    rw [validateDate, if_neg hv0, if_pos hval]
  simp only [parseMetadataLine, htrim, hstrip, hmv, hfld, hv, hvd]
  rw [if_neg (by decide : ¬ (gs "date" : GoStr) = gs "title")]
  rw [if_pos trivial]
  rw [if_neg (fun hc => hc hr)]

theorem parseMetadataLine_tags (strict : Bool) (n : Nat) (r : ParseResult)
    {ts : List GoStr} (hts0 : ts ≠ [])
    (hcond : ∀ t ∈ ts, t ≠ [] ∧ goTrim t = t ∧ ',' ∉ t ∧ '\n' ∉ t)
    (hr : r.metadata.tags = []) :
    parseMetadataLine strict
      ('%' :: '%' :: ' ' :: (gs "tags" ++ ':' :: ' ' :: joinSep (gs ", ") ts)) n r =
      ({ r with metadata := { r.metadata with tags := ts } }, none) := by
  obtain ⟨t, rest, hts⟩ : ∃ t rest, ts = t :: rest := by
    cases ts with
    | nil => exact absurd rfl hts0
    | cons t rest => exact ⟨t, rest, rfl⟩
  subst hts
  have hV0 : joinSep (gs ", ") (t :: rest) ≠ [] :=
    joinSep_head_ne_nil _ t rest (hcond t (by simp)).1
  have hVt : goTrim (joinSep (gs ", ") (t :: rest)) = joinSep (gs ", ") (t :: rest) :=
    goTrim_joinSep_tags (by simp) (fun u hu => ⟨(hcond u hu).1, (hcond u hu).2.1⟩)
  have hVnl : '\n' ∉ joinSep (gs ", ") (t :: rest) :=
    not_mem_joinSep (by decide) _ (fun u hu => (hcond u hu).2.2.2)
  have htrim := (@fieldLine_trim (gs "tags") 't' rfl (by decide) _ hVt hV0).2
  have hstrip := (@fieldLine_strip (gs "tags") 't' rfl (by decide) (by decide) _ hVt hV0).2
  have hmv := @matchFieldValue_eq (gs "tags") (by decide) (by decide) _ hVt hVnl
  have hfld : goLower (goTrim (gs "tags")) = gs "tags" := by decide
  have hsplit : splitCh ',' (joinSep (gs ", ") (t :: rest)) =
      t :: rest.map (fun u => ' ' :: u) :=
    splitCh_comma_joinSep t rest (fun u hu => (hcond u hu).2.2.1)
  simp only [parseMetadataLine, htrim, hstrip, hmv, hfld, hVt, hsplit]
  rw [if_neg (by decide : ¬ (gs "tags" : GoStr) = gs "title")]
  rw [if_neg (by decide : ¬ (gs "tags" : GoStr) = gs "date")]
  rw [if_pos trivial]
  rw [if_neg hV0]
  rw [if_neg (fun hc => hc hr)]
  rw [hr]
  simp only [List.foldl_cons]
  rw [(hcond t (by simp)).2.1, if_pos (hcond t (by simp)).1]
  rw [tags_fold rest ([] ++ [t]) (fun u hu =>
    ⟨(hcond u (List.mem_cons_of_mem t hu)).2.1, (hcond u (List.mem_cons_of_mem t hu)).1⟩)]
  simp


/-! Claim C8: symbolic evaluation of Parse on a block with an invalid date. -/

theorem fieldLine_no_nl {w V : GoStr} (hw : '\n' ∉ w) (hnl : '\n' ∉ V) :
    '\n' ∉ '%' :: '%' :: ' ' :: (w ++ ':' :: ' ' :: V) := by
  intro hm
  rcases List.mem_cons.mp hm with h | hm2
  · exact absurd h (by decide)
  rcases List.mem_cons.mp hm2 with h | hm3
  · exact absurd h (by decide)
  rcases List.mem_cons.mp hm3 with h | hm4
  · exact absurd h (by decide)
  rcases List.mem_append.mp hm4 with h | hm5
  · exact hw h
  rcases List.mem_cons.mp hm5 with h | hm6
  · exact absurd h (by decide)
  rcases List.mem_cons.mp hm6 with h | h
  · exact absurd h (by decide)
  · exact hnl h

theorem c8_parse_shape (strict : Bool) (v : GoStr) (hv0 : v ≠ []) (hv : goTrim v = v)
    (hnl : '\n' ∉ v) (hval : isValidDate v = false) :
    Parse strict (gs "%% Metadata\n%% title: T\n%% date: " ++ v ++ gs "\n") =
      (⟨⟨gs "T", v, []⟩,
        [⟨3, gs "date", gs "invalid date format (expected YYYY-MM-DD): " ++ v⟩], []⟩,
       if strict then some (gs "invalid date format (expected YYYY-MM-DD): " ++ v)
       else none) := by
  have htrim2 := (@fieldLine_trim (gs "date") 'd' rfl (by decide) v hv hv0).2
  have hc : gs "%% Metadata\n%% title: T\n%% date: " ++ v ++ gs "\n" =
      gs "%% Metadata" ++ '\n' ::
        (('%' :: '%' :: ' ' :: (gs "title" ++ ':' :: ' ' :: gs "T")) ++ '\n' ::
          (('%' :: '%' :: ' ' :: (gs "date" ++ ':' :: ' ' :: v)) ++ '\n' :: [])) := by
    have hx : gs "%% Metadata\n%% title: T\n%% date: " = gs "%% Metadata" ++ '\n' ::
        (('%' :: '%' :: ' ' :: (gs "title" ++ ':' :: ' ' :: gs "T")) ++ '\n' ::
          ('%' :: '%' :: ' ' :: gs "date" ++ [':', ' '])) := by decide
    rw [hx]
    simp [List.append_assoc]
    rfl
  have hlines : splitCh '\n' (gs "%% Metadata\n%% title: T\n%% date: " ++ v ++ gs "\n") =
      [gs "%% Metadata",
       '%' :: '%' :: ' ' :: (gs "title" ++ ':' :: ' ' :: gs "T"),
       '%' :: '%' :: ' ' :: (gs "date" ++ ':' :: ' ' :: v),
       []] := by
    rw [hc]
    rw [splitCh_append _ (by decide)]
    rw [splitCh_append _ (by decide)]
    rw [splitCh_append _ (fieldLine_no_nl (by decide) hnl)]
    rw [splitCh_nil]
  have hs2g : goStarts (goTrim ('%' :: '%' :: ' ' :: (gs "date" ++ ':' :: ' ' :: v)))
      (gs "%") = true := by
    rw [htrim2]; rfl
  have hcb : collectBlock
      ['%' :: '%' :: ' ' :: (gs "title" ++ ':' :: ' ' :: gs "T"),
       '%' :: '%' :: ' ' :: (gs "date" ++ ':' :: ' ' :: v), []] =
      ['%' :: '%' :: ' ' :: (gs "title" ++ ':' :: ' ' :: gs "T"),
       '%' :: '%' :: ' ' :: (gs "date" ++ ':' :: ' ' :: v)] := by
    rw [collectBlock, if_pos (by decide)]
    rw [collectBlock, if_pos hs2g]
    rw [collectBlock, if_neg (by decide)]
  have hextract : extractMetadataBlock
      (gs "%% Metadata\n%% title: T\n%% date: " ++ v ++ gs "\n") =
      some (joinSep (gs "\n")
        [gs "%% Metadata",
         '%' :: '%' :: ' ' :: (gs "title" ++ ':' :: ' ' :: gs "T"),
         '%' :: '%' :: ' ' :: (gs "date" ++ ':' :: ' ' :: v)], 0) := by
    rw [extractMetadataBlock, hlines]
    rw [extractGo, if_pos (by decide)]
    rw [hcb]
    rfl
  have hscan : scanTokens (joinSep (gs "\n")
      [gs "%% Metadata",
       '%' :: '%' :: ' ' :: (gs "title" ++ ':' :: ' ' :: gs "T"),
       '%' :: '%' :: ' ' :: (gs "date" ++ ':' :: ' ' :: v)]) =
      [gs "%% Metadata",
       '%' :: '%' :: ' ' :: (gs "title" ++ ':' :: ' ' :: gs "T"),
       '%' :: '%' :: ' ' :: (gs "date" ++ ':' :: ' ' :: v)] := by
    apply scanTokens_joinSep
    · simp
    · intro p hp
      rcases List.mem_cons.mp hp with h | hp2
      · rw [h]; decide
      rcases List.mem_cons.mp hp2 with h | hp3
      · rw [h]; decide
      rcases List.mem_cons.mp hp3 with h | hp4
      · rw [h]; exact fieldLine_no_nl (by decide) hnl
      · simp at hp4
    · intro p hp a ha
      rcases List.mem_cons.mp hp with h | hp2
      · rw [h] at ha
        rw [(by decide : List.getLast? (gs "%% Metadata") = some 'a')] at ha
        injection ha with ha
        rw [← ha]
        decide
      rcases List.mem_cons.mp hp2 with h | hp3
      · rw [h] at ha
        rw [(by decide : List.getLast?
            ('%' :: '%' :: ' ' :: (gs "title" ++ ':' :: ' ' :: gs "T")) = some 'T')] at ha
        injection ha with ha
        rw [← ha]
        decide
      rcases List.mem_cons.mp hp3 with h | hp4
      · rw [h] at ha
        exact trimmed_last htrim2 a ha
      · simp at hp4
    · intro p hp
      rcases List.mem_cons.mp hp with h | hp2
      · rw [h]; decide
      rcases List.mem_cons.mp hp2 with h | hp3
      · rw [h]; decide
      rcases List.mem_cons.mp hp3 with h | hp4
      · rw [h]; simp
      · simp at hp4
  have hns2 : ¬ (goTrim ('%' :: '%' :: ' ' :: (gs "date" ++ ':' :: ' ' :: v)) = [] ∨
      goStarts (goTrim ('%' :: '%' :: ' ' :: (gs "date" ++ ':' :: ' ' :: v)))
        (gs "%% Metadata") = true ∨
      goStarts (goTrim ('%' :: '%' :: ' ' :: (gs "date" ++ ':' :: ' ' :: v)))
        (gs "% Metadata") = true) := by
    rw [htrim2]
    intro hcon
    rcases hcon with h | h | h
    · simp at h
    · have hf : goStarts ('%' :: '%' :: ' ' :: (gs "date" ++ ':' :: ' ' :: v))
          (gs "%% Metadata") = false := rfl
      rw [hf] at h
      simp at h
    · have hf : goStarts ('%' :: '%' :: ' ' :: (gs "date" ++ ':' :: ' ' :: v))
          (gs "% Metadata") = false := rfl
      rw [hf] at h
      simp at h
  have hpm1 := @parseMetadataLine_title strict (0 + 1 + 1) ⟨⟨[], [], []⟩, [], []⟩
      (gs "T") (by decide) (by decide) (by decide) rfl
  have hpm2 := @parseMetadataLine_date_invalid strict (0 + 1 + 1 + 1)
      ⟨⟨gs "T", [], []⟩, [], []⟩ v hv hv0 hnl hval rfl
  have hloop : parseLoop strict 0 ⟨⟨[], [], []⟩, [], []⟩
      [gs "%% Metadata",
       '%' :: '%' :: ' ' :: (gs "title" ++ ':' :: ' ' :: gs "T"),
       '%' :: '%' :: ' ' :: (gs "date" ++ ':' :: ' ' :: v)] =
      (⟨⟨gs "T", v, []⟩,
        [⟨3, gs "date", gs "invalid date format (expected YYYY-MM-DD): " ++ v⟩], []⟩,
       if strict then some (gs "invalid date format (expected YYYY-MM-DD): " ++ v)
       else none) := by
    rw [parseLoop_skip strict 0 _ _ (Or.inr (Or.inl (by decide)))]
    rw [parseLoop_step strict (0 + 1) _ _ _ (by decide) hpm1]
    cases strict with
    | true =>
      rw [parseLoop_err_strict (0 + 1 + 1) _ _ _ _ hns2 (by
        rw [hpm2]
        rfl)]
      rfl
    | false =>
      rw [parseLoop_step false (0 + 1 + 1) _ _ _ hns2 (by
        rw [hpm2]
        rfl)]
      rfl
  cases strict with
  | true =>
    have hloop2 : parseLoop true 0 ⟨⟨[], [], []⟩, [], []⟩
        [gs "%% Metadata",
         '%' :: '%' :: ' ' :: (gs "title" ++ ':' :: ' ' :: gs "T"),
         '%' :: '%' :: ' ' :: (gs "date" ++ ':' :: ' ' :: v)] =
        (⟨⟨gs "T", v, []⟩,
          [⟨3, gs "date", gs "invalid date format (expected YYYY-MM-DD): " ++ v⟩], []⟩,
         some (gs "invalid date format (expected YYYY-MM-DD): " ++ v)) := by
      rw [hloop]
      rfl
    simp only [Parse, hextract, hscan, hloop2]
    rfl
  | false =>
    have hloop2 : parseLoop false 0 ⟨⟨[], [], []⟩, [], []⟩
        [gs "%% Metadata",
         '%' :: '%' :: ' ' :: (gs "title" ++ ':' :: ' ' :: gs "T"),
         '%' :: '%' :: ' ' :: (gs "date" ++ ':' :: ' ' :: v)] =
        (⟨⟨gs "T", v, []⟩,
          [⟨3, gs "date", gs "invalid date format (expected YYYY-MM-DD): " ++ v⟩], []⟩,
         none) := by
      rw [hloop]
      rfl
    have hvm : validateMetadata (⟨gs "T", v, []⟩ : Metadata) = none := rfl
    have hnorm : normalizeMetadata (⟨gs "T", v, []⟩ : Metadata) = ⟨gs "T", v, []⟩ := by
      show Metadata.mk (goTrim (gs "T")) (if v ≠ [] then goTrim v else v) (dedupTags []) =
        ⟨gs "T", v, []⟩
      rw [if_pos hv0, hv]
      rfl
    simp only [Parse, hextract, hscan, hloop2, hvm, hnorm]
    rfl


/-- Claim C8 counterexample: an empty value on a date line is not a
calendar-correct YYYY-MM-DD string, yet validateDate accepts the empty
string, so no date error is recorded in either mode and strict parsing does
not abort. -/
theorem c8_counterexample :
    (Parse false (gs "%% Metadata\n%% title: T\n%% date:\n")).1.errors = [] ∧
    (Parse true (gs "%% Metadata\n%% title: T\n%% date:\n")).1.errors = [] ∧
    (Parse true (gs "%% Metadata\n%% title: T\n%% date:\n")).2 = none :=
  ⟨by decide, by decide, by decide⟩

/-- Claim C8 (amended): for every non-empty date value that is not a
calendar-correct YYYY-MM-DD string (trimmed and newline-free, as every value
parsed from a date line is), parsing records a date error, aborts the parse
only in strict mode, and stores the raw value in Metadata.Date in both
strict and lenient modes, so lenient callers still have a displayable value. -/
theorem c8_invalid_date (v : GoStr) (hv0 : v ≠ []) (hv : goTrim v = v)
    (hnl : '\n' ∉ v) (hval : isValidDate v = false) :
    (Parse false (gs "%% Metadata\n%% title: T\n%% date: " ++ v ++ gs "\n")).1.metadata.date
      = v ∧
    (∃ e ∈ (Parse false (gs "%% Metadata\n%% title: T\n%% date: " ++ v ++ gs "\n")).1.errors,
      e.field = gs "date") ∧
    (Parse false (gs "%% Metadata\n%% title: T\n%% date: " ++ v ++ gs "\n")).2 = none ∧
    (Parse true (gs "%% Metadata\n%% title: T\n%% date: " ++ v ++ gs "\n")).1.metadata.date
      = v ∧
    (∃ e ∈ (Parse true (gs "%% Metadata\n%% title: T\n%% date: " ++ v ++ gs "\n")).1.errors,
      e.field = gs "date") ∧
    (Parse true (gs "%% Metadata\n%% title: T\n%% date: " ++ v ++ gs "\n")).2 ≠ none := by
  have hf := c8_parse_shape false v hv0 hv hnl hval
  have ht := c8_parse_shape true v hv0 hv hnl hval
  refine ⟨?_, ?_, ?_, ?_, ?_, ?_⟩
  · rw [hf]
  · rw [hf]
    exact ⟨⟨3, gs "date", gs "invalid date format (expected YYYY-MM-DD): " ++ v⟩,
      by simp, rfl⟩
  · rw [hf]
    rfl
  · rw [ht]
  · rw [ht]
    exact ⟨⟨3, gs "date", gs "invalid date format (expected YYYY-MM-DD): " ++ v⟩,
      by simp, rfl⟩
  · rw [ht]
    simp

/-- Witness for claim C8's amended theorem at the malformed date 2024-13-01. -/
theorem c8_witness :
    (Parse false (gs "%% Metadata\n%% title: T\n%% date: " ++ gs "2024-13-01" ++ gs "\n")).1.metadata.date
      = gs "2024-13-01" ∧
    (∃ e ∈ (Parse false (gs "%% Metadata\n%% title: T\n%% date: " ++ gs "2024-13-01" ++ gs "\n")).1.errors,
      e.field = gs "date") ∧
    (Parse false (gs "%% Metadata\n%% title: T\n%% date: " ++ gs "2024-13-01" ++ gs "\n")).2 = none ∧
    (Parse true (gs "%% Metadata\n%% title: T\n%% date: " ++ gs "2024-13-01" ++ gs "\n")).1.metadata.date
      = gs "2024-13-01" ∧
    (∃ e ∈ (Parse true (gs "%% Metadata\n%% title: T\n%% date: " ++ gs "2024-13-01" ++ gs "\n")).1.errors,
      e.field = gs "date") ∧
    (Parse true (gs "%% Metadata\n%% title: T\n%% date: " ++ gs "2024-13-01" ++ gs "\n")).2 ≠ none :=
  c8_invalid_date (gs "2024-13-01") (by decide) (by decide) (by decide) (by decide)


/-! Claim C1: the Format and re-parse round trip. -/

theorem digit_no_spc {c : Char} (h1 : '0' ≤ c) : isSpc c = false ∧ ¬ c = '\n' := by
  have hne : ∀ b : Char, ¬ '0' ≤ b → ¬ c = b := fun b hb he => hb (he ▸ h1)
  refine ⟨?_, hne '\n' (by decide)⟩
  simp only [isSpc, decide_eq_false_iff_not]
  push_neg
  exact ⟨hne ' ' (by decide), hne '\t' (by decide), hne '\n' (by decide),
    hne '\r' (by decide), hne (Char.ofNat 11) (by decide), hne (Char.ofNat 12) (by decide)⟩

/-- A calendar-valid date string is non-empty, trimmed and newline-free. -/
theorem isValidDate_facts {d : GoStr} (h : isValidDate d = true) :
    d ≠ [] ∧ goTrim d = d ∧ '\n' ∉ d := by
  rcases d with _ | ⟨d0, _ | ⟨d1, _ | ⟨d2, _ | ⟨d3, _ | ⟨d4, _ | ⟨d5, _ | ⟨d6, _ | ⟨d7, _ | ⟨d8, _ | ⟨d9, _ | ⟨d10, tl⟩⟩⟩⟩⟩⟩⟩⟩⟩⟩⟩
  all_goals try exact Bool.noConfusion h
  rw [isValidDate, decide_eq_true_eq] at h
  obtain ⟨h4, h7, hall, -⟩ := h
  simp [isDigitCh] at hall
  obtain ⟨p0, p1, p2, p3, p5, p6, p8, p9⟩ := hall
  refine ⟨by simp, ?_, ?_⟩
  · apply goTrim_eq_self
    · intro a ha
      simp only [List.head?_cons, Option.some.injEq] at ha
      rw [← ha]
      exact (digit_no_spc p0.1).1
    · intro a ha
      simp only [List.getLast?_cons_cons, List.getLast?_singleton,
        Option.some.injEq] at ha
      rw [← ha]
      exact (digit_no_spc p9.1).1
  · intro hm
    simp only [List.mem_cons, List.not_mem_nil, or_false] at hm
    rcases hm with e | e | e | e | e | e | e | e | e | e
    · exact (digit_no_spc p0.1).2 e.symm
    · exact (digit_no_spc p1.1).2 e.symm
    · exact (digit_no_spc p2.1).2 e.symm
    · exact (digit_no_spc p3.1).2 e.symm
    · rw [h4] at e; exact absurd e (by decide)
    · exact (digit_no_spc p5.1).2 e.symm
    · exact (digit_no_spc p6.1).2 e.symm
    · rw [h7] at e; exact absurd e (by decide)
    · exact (digit_no_spc p8.1).2 e.symm
    · exact (digit_no_spc p9.1).2 e.symm

/-- scanTokens on newline-joined parts, needing only that no part ends in a
carriage return (a part may end in other white space, as the formatter's
empty tags line does). -/
theorem scanTokens_joinSep_cr (parts : List GoStr) (hne : parts ≠ [])
    (hnl : ∀ p ∈ parts, '\n' ∉ p)
    (hcr : ∀ p ∈ parts, ¬ p.getLast? = some '\r')
    (hpne : ∀ p ∈ parts, p ≠ []) :
    scanTokens (joinSep (gs "\n") parts) = parts := by
  obtain ⟨q, hq, hqq⟩ := @getLast?_joinSep_nl (gs "\n") parts hne hpne
  have hqmem : q ∈ parts := List.mem_of_mem_getLast? hq
  have hblock : joinSep (gs "\n") parts ≠ [] := by
    cases parts with
    | nil => exact absurd rfl hne
    | cons x restp => exact joinSep_head_ne_nil _ x restp (hpne x (by simp))
  rw [scanTokens, if_neg (fun h => hblock h)]
  have hlnl : ¬ (joinSep (gs "\n") parts).getLast? = some '\n' := by
    rw [hqq]
    intro hcon
    exact hnl q hqmem (List.mem_of_mem_getLast? hcon)
  rw [if_neg hlnl]
  have hsep : (gs "\n") = ['\n'] := rfl
  rw [hsep, splitCh_joinSep parts hne hnl]
  apply map_eq_self_of
  intro p hp
  rw [dropCR, if_neg (hcr p hp)]

/-- A %%-prefixed field line is neither blank nor a metadata header, so the
parse loop does not skip it. -/
theorem fieldLine_not_skip {w : GoStr} {w0 : Char} (hwh : w.head? = some w0)
    (hw0s : isSpc w0 = false) {V : GoStr} (hV : goTrim V = V) (hV0 : V ≠ [])
    (hne1 : goStarts ('%' :: '%' :: ' ' :: (w ++ ':' :: ' ' :: V))
      (gs "%% Metadata") = false)
    (hne2 : goStarts ('%' :: '%' :: ' ' :: (w ++ ':' :: ' ' :: V))
      (gs "% Metadata") = false) :
    ¬ (goTrim ('%' :: '%' :: ' ' :: (w ++ ':' :: ' ' :: V)) = [] ∨
       goStarts (goTrim ('%' :: '%' :: ' ' :: (w ++ ':' :: ' ' :: V)))
         (gs "%% Metadata") = true ∨
       goStarts (goTrim ('%' :: '%' :: ' ' :: (w ++ ':' :: ' ' :: V)))
         (gs "% Metadata") = true) := by
  have htrim := (fieldLine_trim hwh hw0s hV hV0).2
  rw [htrim]
  intro hcon
  rcases hcon with h | h | h
  · simp at h
  · rw [hne1] at h; simp at h
  · rw [hne2] at h; simp at h

/-- parseMetadataLine on the formatter's empty tags line records nothing. -/
theorem parseMetadataLine_tags_empty (strict : Bool) (n : Nat) (r : ParseResult)
    (hr : r.metadata.tags = []) :
    parseMetadataLine strict (gs "%% tags: ") n r = (r, none) := by
  have hstrip : stripPct (goTrim (gs "%% tags: ")) = gs "tags:" := by decide
  have hmv : matchFieldValue (gs "tags:") = some (gs "tags", []) := by decide
  have hfld : goLower (goTrim (gs "tags")) = gs "tags" := by decide
  simp only [parseMetadataLine, hstrip, hmv, hfld, goTrim_nil]
  rw [if_neg (by decide : ¬ (gs "tags" : GoStr) = gs "title")]
  rw [if_neg (by decide : ¬ (gs "tags" : GoStr) = gs "date")]
  rw [if_pos trivial]
  rw [if_pos trivial]
  rw [if_neg (fun hc => hc hr)]


/-- Lenient Parse of Format output for a header without tags. -/
theorem c1_shape_notags (now T D : GoStr)
    (hT : goTrim T = T) (hT0 : T ≠ []) (hTnl : '\n' ∉ T)
    (hD : goTrim D = D) (hD0 : D ≠ []) (hDnl : '\n' ∉ D)
    (hDval : isValidDate D = true) :
    Parse false (Format now ⟨T, D, []⟩) = (⟨⟨T, D, []⟩, [], []⟩, none) := by
  have htrim1 := (@fieldLine_trim (gs "title") 't' rfl (by decide) T hT hT0).2
  have htrim2 := (@fieldLine_trim (gs "date") 'd' rfl (by decide) D hD hD0).2
  have hfmt : Format now ⟨T, D, []⟩ =
      gs "%% Metadata" ++ '\n' ::
        (('%' :: '%' :: ' ' :: (gs "title" ++ ':' :: ' ' :: T)) ++ '\n' ::
          (('%' :: '%' :: ' ' :: (gs "date" ++ ':' :: ' ' :: D)) ++ '\n' ::
            (gs "%% tags: " ++ '\n' :: []))) := by
    show gs "%% Metadata\n" ++
        (gs "%% title: " ++ T ++ gs "\n") ++
        (gs "%% date: " ++ (if D ≠ [] then D else now) ++ gs "\n") ++
        (if ([] : List GoStr) ≠ [] then
          gs "%% tags: " ++ joinSep (gs ", ") [] ++ gs "\n"
         else gs "%% tags: \n") = _
    rw [if_pos hD0, if_neg (by simp : ¬ ([] : List GoStr) ≠ [])]
    have e1 : (gs "%% Metadata\n" : GoStr) = gs "%% Metadata" ++ ['\n'] := by decide
    have e2 : (gs "%% title: " : GoStr) = ['%', '%', ' '] ++ (gs "title" ++ [':', ' ']) := by
      decide
    have e3 : (gs "%% date: " : GoStr) = ['%', '%', ' '] ++ (gs "date" ++ [':', ' ']) := by
      decide
    have e6 : (gs "%% tags: \n" : GoStr) = gs "%% tags: " ++ ['\n'] := by decide
    have e5 : (gs "\n" : GoStr) = ['\n'] := by decide
    rw [e1, e2, e3, e6, e5]
    simp [List.append_assoc]
  have hlines : splitCh '\n' (Format now ⟨T, D, []⟩) =
      [gs "%% Metadata",
       '%' :: '%' :: ' ' :: (gs "title" ++ ':' :: ' ' :: T),
       '%' :: '%' :: ' ' :: (gs "date" ++ ':' :: ' ' :: D),
       gs "%% tags: ",
       []] := by
    rw [hfmt]
    rw [splitCh_append _ (by decide)]
    rw [splitCh_append _ (fieldLine_no_nl (by decide) hTnl)]
    rw [splitCh_append _ (fieldLine_no_nl (by decide) hDnl)]
    rw [splitCh_append _ (by decide)]
    rw [splitCh_nil]
  have hcb : collectBlock
      ['%' :: '%' :: ' ' :: (gs "title" ++ ':' :: ' ' :: T),
       '%' :: '%' :: ' ' :: (gs "date" ++ ':' :: ' ' :: D),
       gs "%% tags: ",
       []] =
      ['%' :: '%' :: ' ' :: (gs "title" ++ ':' :: ' ' :: T),
       '%' :: '%' :: ' ' :: (gs "date" ++ ':' :: ' ' :: D),
       gs "%% tags: "] := by
    rw [collectBlock, if_pos (by rw [htrim1]; rfl)]
    rw [collectBlock, if_pos (by rw [htrim2]; rfl)]
    rw [collectBlock, if_pos (by decide)]
    rw [collectBlock, if_neg (by decide)]
  have hextract : extractMetadataBlock (Format now ⟨T, D, []⟩) =
      some (joinSep (gs "\n")
        [gs "%% Metadata",
         '%' :: '%' :: ' ' :: (gs "title" ++ ':' :: ' ' :: T),
         '%' :: '%' :: ' ' :: (gs "date" ++ ':' :: ' ' :: D),
         gs "%% tags: "], 0) := by
    rw [extractMetadataBlock, hlines]
    rw [extractGo, if_pos (by decide)]
    rw [hcb]
    rfl
  have hscan : scanTokens (joinSep (gs "\n")
      [gs "%% Metadata",
       '%' :: '%' :: ' ' :: (gs "title" ++ ':' :: ' ' :: T),
       '%' :: '%' :: ' ' :: (gs "date" ++ ':' :: ' ' :: D),
       gs "%% tags: "]) =
      [gs "%% Metadata",
       '%' :: '%' :: ' ' :: (gs "title" ++ ':' :: ' ' :: T),
       '%' :: '%' :: ' ' :: (gs "date" ++ ':' :: ' ' :: D),
       gs "%% tags: "] := by
    apply scanTokens_joinSep_cr
    · simp
    · intro p hp
      rcases List.mem_cons.mp hp with h | hp2
      · rw [h]; decide
      rcases List.mem_cons.mp hp2 with h | hp3
      · rw [h]; exact fieldLine_no_nl (by decide) hTnl
      rcases List.mem_cons.mp hp3 with h | hp4
      · rw [h]; exact fieldLine_no_nl (by decide) hDnl
      rcases List.mem_cons.mp hp4 with h | hp5
      · rw [h]; decide
      · simp at hp5
    · intro p hp
      rcases List.mem_cons.mp hp with h | hp2
      · rw [h]; decide
      rcases List.mem_cons.mp hp2 with h | hp3
      · rw [h]
        intro hcon
        exact absurd (trimmed_last htrim1 '\r' hcon) (by decide)
      rcases List.mem_cons.mp hp3 with h | hp4
      · rw [h]
        intro hcon
        exact absurd (trimmed_last htrim2 '\r' hcon) (by decide)
      rcases List.mem_cons.mp hp4 with h | hp5
      · rw [h]; decide
      · simp at hp5
    · intro p hp
      rcases List.mem_cons.mp hp with h | hp2
      · rw [h]; decide
      rcases List.mem_cons.mp hp2 with h | hp3
      · rw [h]; simp
      rcases List.mem_cons.mp hp3 with h | hp4
      · rw [h]; simp
      rcases List.mem_cons.mp hp4 with h | hp5
      · rw [h]; decide
      · simp at hp5
  have hns1 := @fieldLine_not_skip (gs "title") 't' rfl (by decide) T hT hT0 rfl rfl
  have hns2 := @fieldLine_not_skip (gs "date") 'd' rfl (by decide) D hD hD0 rfl rfl
  have hpm1 := @parseMetadataLine_title false (0 + 1 + 1) ⟨⟨[], [], []⟩, [], []⟩
    T hT hT0 hTnl rfl
  have hpm2 := @parseMetadataLine_date_valid false (0 + 1 + 1 + 1)
    ⟨⟨T, [], []⟩, [], []⟩ D hD hD0 hDnl hDval rfl
  have hpm3 := parseMetadataLine_tags_empty false (0 + 1 + 1 + 1 + 1)
    ⟨⟨T, D, []⟩, [], []⟩ rfl
  have hloop : parseLoop false 0 ⟨⟨[], [], []⟩, [], []⟩
      [gs "%% Metadata",
       '%' :: '%' :: ' ' :: (gs "title" ++ ':' :: ' ' :: T),
       '%' :: '%' :: ' ' :: (gs "date" ++ ':' :: ' ' :: D),
       gs "%% tags: "] = (⟨⟨T, D, []⟩, [], []⟩, none) := by
    rw [parseLoop_skip false 0 _ _ (Or.inr (Or.inl (by decide)))]
    rw [parseLoop_step false (0 + 1) _ _ _ hns1 hpm1]
    rw [parseLoop_step false (0 + 1 + 1) _ _ _ hns2 (by rw [hpm2])]
    rw [parseLoop_step false (0 + 1 + 1 + 1) _ _ _ (by decide) (by rw [hpm3])]
    rfl
  have hvm : validateMetadata (⟨T, D, []⟩ : Metadata) = none := by
    rw [validateMetadata]
    exact if_neg hT0
  have hnorm : normalizeMetadata (⟨T, D, []⟩ : Metadata) = ⟨T, D, []⟩ := by
    show Metadata.mk (goTrim T) (if D ≠ [] then goTrim D else D) (dedupTags []) =
      ⟨T, D, []⟩
    rw [if_pos hD0, hT, hD]
    rfl
  simp only [Parse, hextract, hscan, hloop, hvm, hnorm]


/-- Lenient Parse of Format output for a header with at least one tag. -/
theorem c1_shape_tags (now T D : GoStr)
    (hT : goTrim T = T) (hT0 : T ≠ []) (hTnl : '\n' ∉ T)
    (hD : goTrim D = D) (hD0 : D ≠ []) (hDnl : '\n' ∉ D)
    (hDval : isValidDate D = true)
    (t : GoStr) (restg : List GoStr)
    (hcond : ∀ u ∈ t :: restg, u ≠ [] ∧ goTrim u = u ∧ ',' ∉ u ∧ '\n' ∉ u) :
    Parse false (Format now ⟨T, D, t :: restg⟩) =
      (⟨⟨T, D, dedupTags (t :: restg)⟩, [], []⟩, none) := by
  have htrim1 := (@fieldLine_trim (gs "title") 't' rfl (by decide) T hT hT0).2
  have htrim2 := (@fieldLine_trim (gs "date") 'd' rfl (by decide) D hD hD0).2
  have hJ0 : joinSep (gs ", ") (t :: restg) ≠ [] :=
    joinSep_head_ne_nil _ t restg (hcond t (by simp)).1
  have hJt : goTrim (joinSep (gs ", ") (t :: restg)) = joinSep (gs ", ") (t :: restg) :=
    goTrim_joinSep_tags (by simp) (fun u hu => ⟨(hcond u hu).1, (hcond u hu).2.1⟩)
  have hJnl : '\n' ∉ joinSep (gs ", ") (t :: restg) :=
    not_mem_joinSep (by decide) _ (fun u hu => (hcond u hu).2.2.2)
  have htrim3 := (@fieldLine_trim (gs "tags") 't' rfl (by decide) _ hJt hJ0).2
  have hfmt : Format now ⟨T, D, t :: restg⟩ =
      gs "%% Metadata" ++ '\n' ::
        (('%' :: '%' :: ' ' :: (gs "title" ++ ':' :: ' ' :: T)) ++ '\n' ::
          (('%' :: '%' :: ' ' :: (gs "date" ++ ':' :: ' ' :: D)) ++ '\n' ::
            (('%' :: '%' :: ' ' ::
                (gs "tags" ++ ':' :: ' ' :: joinSep (gs ", ") (t :: restg))) ++
              '\n' :: []))) := by
    show gs "%% Metadata\n" ++
        (gs "%% title: " ++ T ++ gs "\n") ++
        (gs "%% date: " ++ (if D ≠ [] then D else now) ++ gs "\n") ++
        (if (t :: restg : List GoStr) ≠ [] then
          gs "%% tags: " ++ joinSep (gs ", ") (t :: restg) ++ gs "\n"
         else gs "%% tags: \n") = _
    rw [if_pos hD0, if_pos (by simp : (t :: restg : List GoStr) ≠ [])]
    have e1 : (gs "%% Metadata\n" : GoStr) = gs "%% Metadata" ++ ['\n'] := by decide
    have e2 : (gs "%% title: " : GoStr) = ['%', '%', ' '] ++ (gs "title" ++ [':', ' ']) := by
      decide
    have e3 : (gs "%% date: " : GoStr) = ['%', '%', ' '] ++ (gs "date" ++ [':', ' ']) := by
      decide
    have e4 : (gs "%% tags: " : GoStr) = ['%', '%', ' '] ++ (gs "tags" ++ [':', ' ']) := by
      decide
    have e5 : (gs "\n" : GoStr) = ['\n'] := by decide
    rw [e1, e2, e3, e4, e5]
    simp [List.append_assoc]
  have hlines : splitCh '\n' (Format now ⟨T, D, t :: restg⟩) =
      [gs "%% Metadata",
       '%' :: '%' :: ' ' :: (gs "title" ++ ':' :: ' ' :: T),
       '%' :: '%' :: ' ' :: (gs "date" ++ ':' :: ' ' :: D),
       '%' :: '%' :: ' ' :: (gs "tags" ++ ':' :: ' ' :: joinSep (gs ", ") (t :: restg)),
       []] := by
    rw [hfmt]
    rw [splitCh_append _ (by decide)]
    rw [splitCh_append _ (fieldLine_no_nl (by decide) hTnl)]
    rw [splitCh_append _ (fieldLine_no_nl (by decide) hDnl)]
    rw [splitCh_append _ (fieldLine_no_nl (by decide) hJnl)]
    rw [splitCh_nil]
  have hcb : collectBlock
      ['%' :: '%' :: ' ' :: (gs "title" ++ ':' :: ' ' :: T),
       '%' :: '%' :: ' ' :: (gs "date" ++ ':' :: ' ' :: D),
       '%' :: '%' :: ' ' :: (gs "tags" ++ ':' :: ' ' :: joinSep (gs ", ") (t :: restg)),
       []] =
      ['%' :: '%' :: ' ' :: (gs "title" ++ ':' :: ' ' :: T),
       '%' :: '%' :: ' ' :: (gs "date" ++ ':' :: ' ' :: D),
       '%' :: '%' :: ' ' :: (gs "tags" ++ ':' :: ' ' :: joinSep (gs ", ") (t :: restg))] := by
    rw [collectBlock, if_pos (by rw [htrim1]; rfl)]
    rw [collectBlock, if_pos (by rw [htrim2]; rfl)]
    rw [collectBlock, if_pos (by rw [htrim3]; rfl)]
    rw [collectBlock, if_neg (by decide)]
  have hextract : extractMetadataBlock (Format now ⟨T, D, t :: restg⟩) =
      some (joinSep (gs "\n")
        [gs "%% Metadata",
         '%' :: '%' :: ' ' :: (gs "title" ++ ':' :: ' ' :: T),
         '%' :: '%' :: ' ' :: (gs "date" ++ ':' :: ' ' :: D),
         '%' :: '%' :: ' ' :: (gs "tags" ++ ':' :: ' ' :: joinSep (gs ", ") (t :: restg))],
        0) := by
    rw [extractMetadataBlock, hlines]
    rw [extractGo, if_pos (by decide)]
    rw [hcb]
    rfl
  have hscan : scanTokens (joinSep (gs "\n")
      [gs "%% Metadata",
       '%' :: '%' :: ' ' :: (gs "title" ++ ':' :: ' ' :: T),
       '%' :: '%' :: ' ' :: (gs "date" ++ ':' :: ' ' :: D),
       '%' :: '%' :: ' ' :: (gs "tags" ++ ':' :: ' ' :: joinSep (gs ", ") (t :: restg))]) =
      [gs "%% Metadata",
       '%' :: '%' :: ' ' :: (gs "title" ++ ':' :: ' ' :: T),
       '%' :: '%' :: ' ' :: (gs "date" ++ ':' :: ' ' :: D),
       '%' :: '%' :: ' ' :: (gs "tags" ++ ':' :: ' ' :: joinSep (gs ", ") (t :: restg))] := by
    apply scanTokens_joinSep_cr
    · simp
    · intro p hp
      rcases List.mem_cons.mp hp with h | hp2
      · rw [h]; decide
      rcases List.mem_cons.mp hp2 with h | hp3
      · rw [h]; exact fieldLine_no_nl (by decide) hTnl
      rcases List.mem_cons.mp hp3 with h | hp4
      · rw [h]; exact fieldLine_no_nl (by decide) hDnl
      rcases List.mem_cons.mp hp4 with h | hp5
      · rw [h]; exact fieldLine_no_nl (by decide) hJnl
      · simp at hp5
    · intro p hp
      rcases List.mem_cons.mp hp with h | hp2
      · rw [h]; decide
      rcases List.mem_cons.mp hp2 with h | hp3
      · rw [h]
        intro hcon
        exact absurd (trimmed_last htrim1 '\r' hcon) (by decide)
      rcases List.mem_cons.mp hp3 with h | hp4
      · rw [h]
        intro hcon
        exact absurd (trimmed_last htrim2 '\r' hcon) (by decide)
      rcases List.mem_cons.mp hp4 with h | hp5
      · rw [h]
        intro hcon
        exact absurd (trimmed_last htrim3 '\r' hcon) (by decide)
      · simp at hp5
    · intro p hp
      rcases List.mem_cons.mp hp with h | hp2
      · rw [h]; decide
      rcases List.mem_cons.mp hp2 with h | hp3
      · rw [h]; simp
      rcases List.mem_cons.mp hp3 with h | hp4
      · rw [h]; simp
      rcases List.mem_cons.mp hp4 with h | hp5
      · rw [h]; simp
      · simp at hp5
  have hns1 := @fieldLine_not_skip (gs "title") 't' rfl (by decide) T hT hT0 rfl rfl
  have hns2 := @fieldLine_not_skip (gs "date") 'd' rfl (by decide) D hD hD0 rfl rfl
  have hns3 := @fieldLine_not_skip (gs "tags") 't' rfl (by decide) _ hJt hJ0 rfl rfl
  have hpm1 := @parseMetadataLine_title false (0 + 1 + 1) ⟨⟨[], [], []⟩, [], []⟩
    T hT hT0 hTnl rfl
  have hpm2 := @parseMetadataLine_date_valid false (0 + 1 + 1 + 1)
    ⟨⟨T, [], []⟩, [], []⟩ D hD hD0 hDnl hDval rfl
  have hpm3 := @parseMetadataLine_tags false (0 + 1 + 1 + 1 + 1)
    ⟨⟨T, D, []⟩, [], []⟩ (t :: restg) (by simp) hcond rfl
  have hloop : parseLoop false 0 ⟨⟨[], [], []⟩, [], []⟩
      [gs "%% Metadata",
       '%' :: '%' :: ' ' :: (gs "title" ++ ':' :: ' ' :: T),
       '%' :: '%' :: ' ' :: (gs "date" ++ ':' :: ' ' :: D),
       '%' :: '%' :: ' ' :: (gs "tags" ++ ':' :: ' ' :: joinSep (gs ", ") (t :: restg))] =
      (⟨⟨T, D, t :: restg⟩, [], []⟩, none) := by
    rw [parseLoop_skip false 0 _ _ (Or.inr (Or.inl (by decide)))]
    rw [parseLoop_step false (0 + 1) _ _ _ hns1 hpm1]
    rw [parseLoop_step false (0 + 1 + 1) _ _ _ hns2 (by rw [hpm2])]
    rw [parseLoop_step false (0 + 1 + 1 + 1) _ _ _ hns3 (by rw [hpm3])]
    rfl
  have hvm : validateMetadata (⟨T, D, t :: restg⟩ : Metadata) = none := by
    rw [validateMetadata]
    exact if_neg hT0
  have hnorm : normalizeMetadata (⟨T, D, t :: restg⟩ : Metadata) =
      ⟨T, D, dedupTags (t :: restg)⟩ := by
    show Metadata.mk (goTrim T) (if D ≠ [] then goTrim D else D)
      (dedupTags (t :: restg)) = ⟨T, D, dedupTags (t :: restg)⟩
    rw [if_pos hD0, hT, hD]
  simp only [Parse, hextract, hscan, hloop, hvm, hnorm]


/-- Claim C1 counterexample: the header with the non-empty title " x", the
calendar-valid date 2024-01-01 and an empty tag list is valid in the claim's
sense (non-empty title, well-formed non-empty date, tag list), yet formatting
it and re-parsing leniently trims the title to "x", so the round trip does
not return the metadata unchanged up to tag deduplication. -/
theorem c1_counterexample :
    (gs " x" : GoStr) ≠ [] ∧ isValidDate (gs "2024-01-01") = true ∧
    Extract (Format (gs "2024-05-05") ⟨gs " x", gs "2024-01-01", []⟩) ≠
      ⟨gs " x", gs "2024-01-01", dedupTags []⟩ := by decide

/-- Claim C1 (amended): for every header whose title is non-empty, trimmed
and newline-free, whose date is a calendar-correct YYYY-MM-DD string, and
whose tags are each non-empty, trimmed, comma-free and newline-free,
formatting with Format and re-parsing with the lenient parser yields the
title and date unchanged and the tags up to case-insensitive first-seen
deduplication (the round-trip law). -/
theorem c1_round_trip (now : GoStr) (H : Metadata)
    (hT : goTrim H.title = H.title) (hT0 : H.title ≠ []) (hTnl : '\n' ∉ H.title)
    (hDval : isValidDate H.date = true)
    (htags : ∀ u ∈ H.tags, u ≠ [] ∧ goTrim u = u ∧ ',' ∉ u ∧ '\n' ∉ u) :
    Extract (Format now H) = ⟨H.title, H.date, dedupTags H.tags⟩ := by
  obtain ⟨hD0, hD, hDnl⟩ := isValidDate_facts hDval
  obtain ⟨T, D, ts⟩ := H
  cases ts with
  | nil =>
    rw [Extract, c1_shape_notags now T D hT hT0 hTnl hD hD0 hDnl hDval]
    rfl
  | cons t restg =>
    rw [Extract, c1_shape_tags now T D hT hT0 hTnl hD hD0 hDnl hDval t restg htags]

/-- Witness for claim C1's amended round-trip theorem at a concrete header
with a case-insensitively repeated tag. -/
theorem c1_witness :
    Extract (Format (gs "2024-05-05")
      ⟨gs "Graph Theory", gs "2024-01-02", [gs "Math", gs "math", gs "calc"]⟩) =
      ⟨gs "Graph Theory", gs "2024-01-02",
        dedupTags [gs "Math", gs "math", gs "calc"]⟩ :=
  c1_round_trip (gs "2024-05-05")
    ⟨gs "Graph Theory", gs "2024-01-02", [gs "Math", gs "math", gs "calc"]⟩
    (by decide) (by decide) (by decide) (by decide) (by decide)


/-! Claim C7: error diagnostics are exactly the unindexed ref/cite occurrences. -/

theorem diagsFrom_filter_err (idx : Index) : ∀ (n : Nat) (ls : List GoStr),
    (diagsFrom idx n ls).filter isErrDiag =
      (refCiteOccsFrom n ls).filterMap (fun o =>
        if (idxGet idx (diagSlug o.2.1 o.2.2.2.1 o.2.2.2.2.1)).isSome then none
        else some (mkRefDiag o.1 o.2.1 o.2.2)) := by
  intro n ls
  induction ls generalizing n with
  | nil => rfl
  | cons l ls ih =>
    rw [diagsFrom, refCiteOccsFrom, List.filter_append, List.filterMap_append, ih n.succ]
    congr 1
    rw [diagLine]
    by_cases hc : goStarts (goTrim l) (gs "%") = true
    · rw [if_pos hc, if_pos hc]
      rfl
    · rw [if_neg hc, if_neg hc]
      rw [List.filter_append]
      have h2 : (((scanBr [gs "todo"] l).map fun sp => mkTodoDiag n l sp).filter
          isErrDiag) = [] := by
        rw [List.filter_eq_nil_iff]
        intro d hd
        obtain ⟨sp, _, hsp⟩ := List.mem_map.mp hd
        rw [← hsp]
        intro hcon
        exact Bool.noConfusion hcon
      have h1 : (((scanBr [gs "ref", gs "cite"] l).filterMap fun sp =>
          if (idxGet idx (diagSlug l sp.2.1 sp.2.2.1)).isSome then none
          else some (mkRefDiag n l sp)).filter isErrDiag) =
          ((scanBr [gs "ref", gs "cite"] l).filterMap fun sp =>
            if (idxGet idx (diagSlug l sp.2.1 sp.2.2.1)).isSome then none
            else some (mkRefDiag n l sp)) := by
        rw [List.filter_eq_self]
        intro d hd
        obtain ⟨sp, _, hsp⟩ := List.mem_filterMap.mp hd
        by_cases hcond : (idxGet idx (diagSlug l sp.2.1 sp.2.2.1)).isSome = true
        · rw [if_pos hcond] at hsp
          exact Option.noConfusion hsp
        · rw [if_neg hcond] at hsp
          injection hsp with hsp
          rw [← hsp]
          rfl
      rw [h1, h2, List.append_nil, List.filterMap_map]
      rfl

/-- Claim C7: analyzeDiagnostics emits exactly one error diagnostic per
ref/cite occurrence on a non-comment line whose normalized slug is not
indexed, located at the argument span; input/include occurrences never
produce such errors (a document containing only them yields no diagnostics
for any index); and with only existing-note indexed, the two-line document
referencing existing-note and missing-note yields exactly the one error at
the missing-note argument span. -/
theorem c7_diagnostics :
    (∀ (idx : Index) (content : GoStr),
      (analyzeDiagnostics idx content).filter isErrDiag =
        (refCiteOccs content).filterMap (fun o =>
          if (idxGet idx (diagSlug o.2.1 o.2.2.2.1 o.2.2.2.2.1)).isSome then none
          else some (mkRefDiag o.1 o.2.1 o.2.2))) ∧
    (∀ idx : Index,
      analyzeDiagnostics idx
        (gs "\\input\x7bmissing-note\x7d\n\\include\x7bmissing-note\x7d") = []) ∧
    analyzeDiagnostics
        [(gs "existing-note",
          ⟨gs "Existing", gs "2024-01-01", [], gs "existing-note",
           gs "existing-note.tex"⟩)]
        (gs "Check \\ref\x7bexisting-note\x7d.\nSee \\ref\x7bmissing-note\x7d.") =
      [⟨⟨⟨1, 9⟩, ⟨1, 21⟩⟩, Severity.error,
        gs "Note \x27missing-note\x27 not found", gs "lx-ls"⟩] :=
  ⟨fun idx content => diagsFrom_filter_err idx 0 (splitCh '\n' content),
   fun idx => rfl,
   by decide⟩


/-! Claim C2: the in-place metadata updater. -/

theorem goStarts_mono {s p q : GoStr} (hpq : goStarts p q = true)
    (hs : goStarts s p = true) : goStarts s q = true := by
  rw [goStarts, List.isPrefixOf_iff_prefix] at hpq hs ⊢
  exact hpq.trans hs

/-- The extractor's scan skips any leading lines that are not metadata
headers, advancing the line index. -/
theorem extractGo_skip : ∀ (pre : List GoStr),
    (∀ l ∈ pre, isMetaHeader l = false) →
    ∀ (ls : List GoStr) (i : Nat),
      extractGo (pre ++ ls) i = extractGo ls (pre.length + i) := by
  intro pre
  induction pre with
  | nil => intro _ ls i; simp
  | cons p ps ih =>
    intro hp ls i
    rw [List.cons_append, extractGo, if_neg (by simp [hp p (by simp)])]
    rw [ih (fun l hl => hp l (List.mem_cons_of_mem p hl)) ls (i + 1)]
    congr 1
    simp only [List.length_cons]
    omega

/-- Update's block-end search over percent-prefixed non-header body lines
followed by a stopping tail, entered with the running index equal to the
recorded end. -/
theorem blockEndLoop_run : ∀ (body : List GoStr),
    (∀ l ∈ body, goStarts (goTrim l) (gs "%") = true ∧
      goStarts (goTrim l) (gs "%% Metadata") = false ∧
      goStarts (goTrim l) (gs "% Metadata") = false) →
    ∀ (rest : List GoStr),
    (match rest with
     | [] => True
     | r0 :: _ => goStarts (goTrim r0) (gs "%") = false) →
    ∀ j : Nat, blockEndLoop (body ++ rest) true j j = j + body.length := by
  intro body
  induction body with
  | nil =>
    intro _ rest hrest j
    cases rest with
    | nil => rfl
    | cons r0 restq =>
      have hr : goStarts (goTrim r0) (gs "%") = false := hrest
      have hr1 : goStarts (goTrim r0) (gs "%% Metadata") = false := by
        cases hq : goStarts (goTrim r0) (gs "%% Metadata") with
        | false => rfl
        | true =>
          rw [goStarts_mono (by decide) hq] at hr
          exact Bool.noConfusion hr
      have hr2 : goStarts (goTrim r0) (gs "% Metadata") = false := by
        cases hq : goStarts (goTrim r0) (gs "% Metadata") with
        | false => rfl
        | true =>
          rw [goStarts_mono (by decide) hq] at hr
          exact Bool.noConfusion hr
      have hnh : ¬ (goStarts (goTrim r0) (gs "%% Metadata") = true ∨
          goStarts (goTrim r0) (gs "% Metadata") = true) := by
        intro hcon
        rcases hcon with hx | hx
        · rw [hr1] at hx; exact Bool.noConfusion hx
        · rw [hr2] at hx; exact Bool.noConfusion hx
      show blockEndLoop (r0 :: restq) true j j = j + 0
      simp only [blockEndLoop]
      rw [if_neg hnh, if_pos trivial,
        if_pos (fun hcon => by rw [hr] at hcon; exact Bool.noConfusion hcon)]
      rfl
  | cons b bs ih =>
    intro h rest hrest j
    have hb := h b (by simp)
    have hnh : ¬ (goStarts (goTrim b) (gs "%% Metadata") = true ∨
        goStarts (goTrim b) (gs "% Metadata") = true) := by
      intro hcon
      rcases hcon with hx | hx
      · rw [hb.2.1] at hx; exact Bool.noConfusion hx
      · rw [hb.2.2] at hx; exact Bool.noConfusion hx
    rw [List.cons_append]
    simp only [blockEndLoop]
    rw [if_neg hnh, if_pos trivial, if_neg (fun hcon => hcon hb.1)]
    rw [ih (fun l hl => h l (List.mem_cons_of_mem b hl)) rest hrest (j + 1)]
    simp only [List.length_cons]
    omega

/-- Update's block-end search right after consuming the header line, where
the recorded end still lags one behind the running index. -/
theorem blockEndLoop_entry (body : List GoStr)
    (h : ∀ l ∈ body, goStarts (goTrim l) (gs "%") = true ∧
      goStarts (goTrim l) (gs "%% Metadata") = false ∧
      goStarts (goTrim l) (gs "% Metadata") = false)
    (rest : List GoStr)
    (hrest : match rest with
     | [] => True
     | r0 :: _ => goStarts (goTrim r0) (gs "%") = false)
    (bs : Nat) (hne : body ≠ [] ∨ rest ≠ []) :
    blockEndLoop (body ++ rest) true bs (bs + 1) = bs + 1 + body.length := by
  cases body with
  | nil =>
    cases rest with
    | nil => rcases hne with h1 | h1 <;> exact absurd rfl h1
    | cons r0 restq =>
      have hr : goStarts (goTrim r0) (gs "%") = false := hrest
      have hr1 : goStarts (goTrim r0) (gs "%% Metadata") = false := by
        cases hq : goStarts (goTrim r0) (gs "%% Metadata") with
        | false => rfl
        | true =>
          rw [goStarts_mono (by decide) hq] at hr
          exact Bool.noConfusion hr
      have hr2 : goStarts (goTrim r0) (gs "% Metadata") = false := by
        cases hq : goStarts (goTrim r0) (gs "% Metadata") with
        | false => rfl
        | true =>
          rw [goStarts_mono (by decide) hq] at hr
          exact Bool.noConfusion hr
      have hnh : ¬ (goStarts (goTrim r0) (gs "%% Metadata") = true ∨
          goStarts (goTrim r0) (gs "% Metadata") = true) := by
        intro hcon
        rcases hcon with hx | hx
        · rw [hr1] at hx; exact Bool.noConfusion hx
        · rw [hr2] at hx; exact Bool.noConfusion hx
      show blockEndLoop (r0 :: restq) true bs (bs + 1) = bs + 1 + 0
      simp only [blockEndLoop]
      rw [if_neg hnh, if_pos trivial,
        if_pos (fun hcon => by rw [hr] at hcon; exact Bool.noConfusion hcon)]
  | cons b bs2 =>
    have hb := h b (by simp)
    have hnh : ¬ (goStarts (goTrim b) (gs "%% Metadata") = true ∨
        goStarts (goTrim b) (gs "% Metadata") = true) := by
      intro hcon
      rcases hcon with hx | hx
      · rw [hb.2.1] at hx; exact Bool.noConfusion hx
      · rw [hb.2.2] at hx; exact Bool.noConfusion hx
    rw [List.cons_append]
    simp only [blockEndLoop]
    rw [if_neg hnh, if_pos trivial, if_neg (fun hcon => hcon hb.1)]
    rw [blockEndLoop_run bs2 (fun l hl => h l (List.mem_cons_of_mem b hl))
      rest hrest (bs + 1 + 1)]
    simp only [List.length_cons]
    omega


/-- Claim C2 counterexample: on "%%Metadata\n% title: x\nbody" the lenient
extractor does find a metadata block (so the claim promises it is replaced),
but Update's own block-end search only recognizes lines prefixed with
"%% Metadata" or "% Metadata" verbatim, never advances past the block, and
the result carries the new canonical block followed by the entire old
content, old metadata block included. -/
theorem c2_counterexample :
    (extractMetadataBlock (gs "%%Metadata\n% title: x\nbody")).isSome = true ∧
    Update (gs "2024-05-05") (gs "%%Metadata\n% title: x\nbody")
        ⟨gs "T", gs "2024-01-01", []⟩ =
      Format (gs "2024-05-05") ⟨gs "T", gs "2024-01-01", []⟩ ++
        gs "%%Metadata\n% title: x\nbody" := by decide

/-- Claim C2 (amended): when no metadata block is found, Update prepends the
canonical block and a separating newline to the unchanged content.  When the
content's lines split as pre ++ hdr :: body ++ rest with no header-like line
in pre, hdr a header whose trimmed text begins with "%% Metadata" or
"% Metadata" (the only forms Update's own block-end search recognizes),
every body line percent-prefixed but not header-prefixed, rest starting with
a non-percent-prefixed line if at all, and hdr not the very last line,
Update keeps pre verbatim (newline-terminated), replaces hdr and body with
Format's canonical block, drops exactly one following blank line if rest
starts with one, and keeps the remaining lines verbatim.  When such a header
is the last line of the content (no body, no tail), Update does not replace
it: the old header line is kept verbatim after the new block. -/
theorem c2_update (now : GoStr) (m : Metadata) :
    (∀ content : GoStr, extractMetadataBlock content = none →
      Update now content m = Format now m ++ '\n' :: content) ∧
    (∀ (content : GoStr) (pre body rest : List GoStr) (hdr : GoStr),
      splitCh '\n' content = pre ++ hdr :: (body ++ rest) →
      (∀ l ∈ pre, isMetaHeader l = false) →
      isMetaHeader hdr = true →
      (goStarts (goTrim hdr) (gs "%% Metadata") = true ∨
       goStarts (goTrim hdr) (gs "% Metadata") = true) →
      (∀ l ∈ body, goStarts (goTrim l) (gs "%") = true ∧
        goStarts (goTrim l) (gs "%% Metadata") = false ∧
        goStarts (goTrim l) (gs "% Metadata") = false) →
      (match rest with
       | [] => True
       | r0 :: _ => goStarts (goTrim r0) (gs "%") = false) →
      (body ≠ [] ∨ rest ≠ []) →
      Update now content m =
        joinNl pre ++ Format now m ++
          (match rest with
           | [] => []
           | r0 :: restq =>
             if goTrim r0 = [] then joinSep (gs "\n") restq
             else joinSep (gs "\n") (r0 :: restq))) ∧
    (∀ (content : GoStr) (pre : List GoStr) (hdr : GoStr),
      splitCh '\n' content = pre ++ [hdr] →
      (∀ l ∈ pre, isMetaHeader l = false) →
      isMetaHeader hdr = true →
      (goStarts (goTrim hdr) (gs "%% Metadata") = true ∨
       goStarts (goTrim hdr) (gs "% Metadata") = true) →
      Update now content m = joinNl pre ++ Format now m ++ hdr) := by
  refine ⟨?_, ?_, ?_⟩
  · intro content hnone
    simp only [Update, hnone]
  · intro content pre body rest hdr hsplit hpre hhdr1 hhdr2 hbody hrest hne
    have hextract : extractMetadataBlock content =
        some (joinSep (gs "\n") (hdr :: collectBlock (body ++ rest)), pre.length) := by
      rw [extractMetadataBlock, hsplit,
        extractGo_skip pre hpre (hdr :: (body ++ rest)) 0]
      rw [extractGo, if_pos hhdr1]
      rfl
    have hloop : blockEndLoop (hdr :: (body ++ rest)) false pre.length pre.length =
        pre.length + 1 + body.length := by
      simp only [blockEndLoop]
      rw [if_pos hhdr2]
      exact blockEndLoop_entry body hbody rest hrest pre.length hne
    have hd2 : (pre ++ hdr :: (body ++ rest)).drop (pre.length + 1 + body.length)
        = rest := by
      have he : pre ++ hdr :: (body ++ rest) = (pre ++ hdr :: body) ++ rest := by
        simp
      rw [he]
      have hlen : (pre ++ hdr :: body).length = pre.length + 1 + body.length := by
        simp only [List.length_append, List.length_cons]
        omega
      rw [← hlen, List.drop_left]
    simp only [Update, hextract, hsplit]
    rw [List.drop_left, hloop, List.take_left, hd2]
  · intro content pre hdr hsplit hpre hhdr1 hhdr2
    have hextract : extractMetadataBlock content = some (hdr, pre.length) := by
      rw [extractMetadataBlock, hsplit, extractGo_skip pre hpre [hdr] 0]
      rw [extractGo, if_pos hhdr1]
      rfl
    have hne0 : goTrim hdr ≠ [] := by
      intro hcon
      rcases hhdr2 with hx | hx
      · rw [hcon] at hx; exact Bool.noConfusion hx
      · rw [hcon] at hx; exact Bool.noConfusion hx
    have hloop : blockEndLoop [hdr] false pre.length pre.length = pre.length := by
      simp only [blockEndLoop]
      rw [if_pos hhdr2]
    simp only [Update, hextract, hsplit]
    rw [List.drop_left, hloop, List.drop_left, List.take_left]
    show joinNl pre ++ Format now m ++
        (if goTrim hdr = [] then joinSep (gs "\n") ([] : List GoStr)
         else joinSep (gs "\n") [hdr]) =
      joinNl pre ++ Format now m ++ hdr
    rw [if_neg hne0, joinSep_single]

/-- Witness for claim C2's amended theorem: the prepend case on a block-free
document; the replace case both for a "%% Metadata" and for a "% Metadata"
header, each with an intro line and a blank line before the body, which is
collapsed; and the kept-header case where the header is the last line. -/
theorem c2_witness :
    Update (gs "2024-05-05") (gs "no block here") ⟨gs "T", gs "2024-01-01", []⟩ =
      Format (gs "2024-05-05") ⟨gs "T", gs "2024-01-01", []⟩ ++
        '\n' :: gs "no block here" ∧
    Update (gs "2024-05-05") (gs "intro\n%% Metadata\n%% title: Old\n\nBody text")
        ⟨gs "T", gs "2024-01-01", []⟩ =
      joinNl [gs "intro"] ++ Format (gs "2024-05-05") ⟨gs "T", gs "2024-01-01", []⟩ ++
        joinSep (gs "\n") [gs "Body text"] ∧
    Update (gs "2024-05-05") (gs "intro\n% Metadata\n% title: Old\n\nBody text")
        ⟨gs "T", gs "2024-01-01", []⟩ =
      joinNl [gs "intro"] ++ Format (gs "2024-05-05") ⟨gs "T", gs "2024-01-01", []⟩ ++
        joinSep (gs "\n") [gs "Body text"] ∧
    Update (gs "2024-05-05") (gs "x\n%% Metadata") ⟨gs "T", gs "2024-01-01", []⟩ =
      joinNl [gs "x"] ++ Format (gs "2024-05-05") ⟨gs "T", gs "2024-01-01", []⟩ ++
        gs "%% Metadata" := by
  refine ⟨?_, ?_, ?_, ?_⟩
  · exact (c2_update (gs "2024-05-05") ⟨gs "T", gs "2024-01-01", []⟩).1
      (gs "no block here") (by decide)
  · have h := (c2_update (gs "2024-05-05") ⟨gs "T", gs "2024-01-01", []⟩).2.1
      (gs "intro\n%% Metadata\n%% title: Old\n\nBody text")
      [gs "intro"] [gs "%% title: Old"] [[], gs "Body text"] (gs "%% Metadata")
      (by decide) (by decide) (by decide) (Or.inl (by decide)) (by decide)
      (by decide) (Or.inl (by decide))
    rw [h]
    decide
  · have h := (c2_update (gs "2024-05-05") ⟨gs "T", gs "2024-01-01", []⟩).2.1
      (gs "intro\n% Metadata\n% title: Old\n\nBody text")
      [gs "intro"] [gs "% title: Old"] [[], gs "Body text"] (gs "% Metadata")
      (by decide) (by decide) (by decide) (Or.inr (by decide)) (by decide)
      (by decide) (Or.inl (by decide))
    rw [h]
    decide
  · exact (c2_update (gs "2024-05-05") ⟨gs "T", gs "2024-01-01", []⟩).2.2
      (gs "x\n%% Metadata") [gs "x"] (gs "%% Metadata")
      (by decide) (by decide) (by decide) (Or.inl (by decide))

end Lx
